import Mathlib

/-!
Verification of go-libp2p-nym: a shallow embedding of the
message-reordering queue (`queue/queue.go`), the wire codec
(`message/encoding.go`, `message/recipient.go`, `message/types.go`),
the gateway request serializer (`mixnet`), the transport state
machine (`transport/transport.go`) and the substream state machine
(`transport/substream.go`), together with theorems settling the
spec's claims about them.

Bytes are modelled as `Nat` values (well-formedness predicates bound
them below 256 where the code inspects their numeric value); Go slices
become `List Nat`; fallible functions return `Option`; stateful
methods become state-passing functions.
-/

namespace NymSpec

/-! ## Data model (`message/types.go`) -/

/-- `SubstreamMessage` from `types.go`: substream id, tag byte
(`OpenRequest = 0`, `OpenResponse = 1`, `Close = 2`, `Data = 3`) and
payload bytes.  The Go field `Type` is rendered `typ` (`Type` is a
Lean keyword). -/
structure SubstreamMessage where
  ID : List Nat
  typ : Nat
  Data : List Nat
  deriving DecidableEq, Repr

/-- `TransportMessage` from `types.go`: nonce, substream message and
connection id. -/
structure TransportMessage where
  Nonce : Nat
  Message : SubstreamMessage
  ID : List Nat
  deriving DecidableEq, Repr

/-! ## Reordering queue (`queue/queue.go`)

The Go `MessageQueue` holds `nextExpectedNonce`, a map
`pending : nonce → TransportMessage` and a sorted slice `nonces` of
the map's keys.  Map plus sorted key index is modelled as a single
list of messages sorted strictly by nonce. -/

structure MessageQueue where
  nextExpectedNonce : Nat
  pending : List TransportMessage
  deriving DecidableEq, Repr

namespace MessageQueue

/-- `queue.New()`. -/
def New : MessageQueue := ⟨0, []⟩

/-- `SetConnectionMessageReceived`: arms the queue; the Go code
panics when the queue is already armed, modelled by `none`. -/
def SetConnectionMessageReceived (q : MessageQueue) : Option MessageQueue :=
  if q.nextExpectedNonce ≠ 0 then none
  else some { q with nextExpectedNonce := 1 }

/-- `insertLocked`: store the message under its nonce (the Go map
assignment overwrites an existing entry) and keep the nonce index
sorted (the Go binary-search insertion skips an existing nonce). -/
def insertLocked (msg : TransportMessage) : List TransportMessage → List TransportMessage
  | [] => [msg]
  | x :: xs =>
    if x.Nonce < msg.Nonce then x :: insertLocked msg xs
    else if x.Nonce = msg.Nonce then msg :: xs
    else msg :: x :: xs

/-- `TryPush`: returns (released message, accepted flag, new queue
state). -/
def TryPush (q : MessageQueue) (msg : TransportMessage) :
    Option TransportMessage × Bool × MessageQueue :=
  if q.nextExpectedNonce = 0 then
    -- handshake not completed yet, buffer everything
    (none, false, { q with pending := insertLocked msg q.pending })
  else if msg.Nonce = q.nextExpectedNonce then
    (some msg, true, { q with nextExpectedNonce := q.nextExpectedNonce + 1 })
  else if msg.Nonce < q.nextExpectedNonce then
    (none, false, q)
  else if q.pending.any (fun x => x.Nonce = msg.Nonce) then
    (none, false, q)
  else
    (none, false, { q with pending := insertLocked msg q.pending })

/-- `Pop`: yields the smallest buffered message iff the queue is armed
and that message carries the next expected nonce. -/
def Pop (q : MessageQueue) : Option TransportMessage × MessageQueue :=
  if q.nextExpectedNonce = 0 then (none, q)
  else
    match q.pending with
    | [] => (none, q)
    | m :: rest =>
      if m.Nonce = q.nextExpectedNonce then
        (some m, ⟨q.nextExpectedNonce + 1, rest⟩)
      else (none, q)

/-- The `for { Pop }` loop of `Conn.handleTransportMessage`
(`transport/conn.go`): keep popping until `Pop` yields nothing.  Each
successful `Pop` removes one buffered message, so the pending length
bounds the iteration count and serves as fuel. -/
def popLoop : Nat → MessageQueue → List TransportMessage × MessageQueue
  | 0, q => ([], q)
  | fuel + 1, q =>
    match Pop q with
    | (none, q1) => ([], q1)
    | (some m, q1) =>
      let r := popLoop fuel q1
      (m :: r.1, r.2)

/-- `Conn.handleTransportMessage` restricted to its queue interaction:
offer the frame via `TryPush`, dispatch the released frame if any,
then drain via `Pop`.  Returns released frames in dispatch order. -/
def handleTransportMessage (q : MessageQueue) (msg : TransportMessage) :
    List TransportMessage × MessageQueue :=
  let (r, _, q1) := TryPush q msg
  let (ms, q2) := popLoop q1.pending.length q1
  ((match r with | some m => [m] | none => []) ++ ms, q2)

/-- Process a whole list of inbound frames through
`handleTransportMessage`, concatenating the released frames. -/
def processAll (q : MessageQueue) : List TransportMessage → List TransportMessage × MessageQueue
  | [] => ([], q)
  | f :: fs =>
    let (ms, q1) := handleTransportMessage q f
    let (rest, q2) := processAll q1 fs
    (ms ++ rest, q2)

/-- Push a list of frames one at a time via `TryPush`, recording every
`(released, accepted)` result pair. -/
def pushAll (q : MessageQueue) : List TransportMessage →
    List (Option TransportMessage × Bool) × MessageQueue
  | [] => ([], q)
  | f :: fs =>
    let (r, ok, q1) := TryPush q f
    let (rs, q2) := pushAll q1 fs
    ((r, ok) :: rs, q2)

/-- The nonces currently buffered, in index order (the Go `nonces`
slice). -/
def pnonces (q : MessageQueue) : List Nat := q.pending.map TransportMessage.Nonce

/-- The state invariant of an armed queue that has been fed exactly
the frames with nonces in `pushed` (all distinct, all positive),
each immediately followed by a full `Pop` drain: everything below
`nextExpectedNonce` has been pushed and released, `nextExpectedNonce`
itself has not arrived yet, and the buffer holds exactly the pushed
nonces from `nextExpectedNonce` up, sorted. -/
def Inv (pushed : List Nat) (q : MessageQueue) : Prop :=
  1 ≤ q.nextExpectedNonce ∧
  q.nextExpectedNonce ∉ pushed ∧
  (∀ m, 1 ≤ m → m < q.nextExpectedNonce → m ∈ pushed) ∧
  List.Pairwise (· < ·) (pnonces q) ∧
  (∀ m, m ∈ pnonces q ↔ m ∈ pushed ∧ q.nextExpectedNonce ≤ m)

end MessageQueue

/-! ## Recipient (`message/recipient.go`)

A mixnet address: three 32-byte public keys.  Keys are byte lists; a
well-formedness predicate pins length 32 and byte range. -/

structure Recipient where
  ClientIdentity : List Nat
  ClientEncryptionKey : List Nat
  Gateway : List Nat
  deriving DecidableEq, Repr

/-- All entries are byte values. -/
def bytesWF (l : List Nat) : Bool := l.all (· < 256)

/-- A `Recipient` whose keys have the fixed 32-byte layout of the Go
`[32]byte` arrays. -/
def Recipient.WF (r : Recipient) : Bool :=
  (r.ClientIdentity.length == 32) && (r.ClientEncryptionKey.length == 32) &&
  (r.Gateway.length == 32) &&
  bytesWF r.ClientIdentity && bytesWF r.ClientEncryptionKey && bytesWF r.Gateway

/-- `Recipient.Bytes`: the canonical 96-byte concatenation. -/
def Recipient.Bytes (r : Recipient) : List Nat :=
  r.ClientIdentity ++ r.ClientEncryptionKey ++ r.Gateway

/-- `RecipientFromBytes`: split a 96-byte buffer into the three keys. -/
def RecipientFromBytes (b : List Nat) : Option Recipient :=
  if b.length ≠ 96 then none
  else some ⟨b.take 32, (b.drop 32).take 32, b.drop 64⟩

/-! ### base58 (mr-tron/base58, the library used by `recipient.go`)

`FastBase58Encoding` converts the byte string, read as a big-endian
number, to big-endian base-58 digits, prefixing one alphabet-zero
character (`'1'` = 49) per leading zero byte.  `FastBase58Decoding`
rejects the empty string and characters outside the alphabet, then
emits one zero byte per leading `'1'` followed by the minimal
big-endian byte representation of the digit-string's value. -/

/-- The bitcoin base58 alphabet
`123456789ABCDEFGHJKLMNPQRSTUVWXYZabcdefghijkmnopqrstuvwxyz` as ASCII
codes. -/
def b58Alphabet : List Nat :=
  [49, 50, 51, 52, 53, 54, 55, 56, 57,
   65, 66, 67, 68, 69, 70, 71, 72, 74, 75, 76, 77, 78,
   80, 81, 82, 83, 84, 85, 86, 87, 88, 89, 90,
   97, 98, 99, 100, 101, 102, 103, 104, 105, 106, 107,
   109, 110, 111, 112, 113, 114, 115, 116, 117, 118, 119, 120, 121, 122]

/-- Value of a big-endian byte string (the number the base-conversion
loop of `FastBase58Encoding` computes). -/
def beBytesToNat (bs : List Nat) : Nat := bs.foldl (fun acc b => acc * 256 + b) 0

/-- Count the leading occurrences of `z`. -/
def countLeading (z : Nat) : List Nat → Nat
  | [] => 0
  | b :: rest => if b = z then countLeading z rest + 1 else 0

/-- `base58.Encode` on bytes, producing ASCII codes. -/
def base58Encode (bin : List Nat) : List Nat :=
  List.replicate (countLeading 0 bin) 49 ++
    ((Nat.digits 58 (beBytesToNat bin)).reverse.map fun d => b58Alphabet.getD d 0)

/-- `base58.Decode` on ASCII codes, producing bytes. -/
def base58Decode (s : List Nat) : Option (List Nat) :=
  if s.isEmpty then none
  else if s.all (fun c => b58Alphabet.contains c) then
    some (List.replicate (countLeading 49 s) 0 ++
      (Nat.digits 256 (s.foldl (fun acc c => acc * 58 + b58Alphabet.indexOf c) 0)).reverse)
  else none

/-- `decodeBase58To32` from `recipient.go`: base58-decode and require
exactly 32 bytes. -/
def decodeBase58To32 (s : List Nat) : Option (List Nat) :=
  match base58Decode s with
  | none => none
  | some decoded => if decoded.length ≠ 32 then none else some decoded

/-- `strings.Split` with a single-character separator, on ASCII
codes. -/
def splitChar (sep : Nat) : List Nat → List (List Nat)
  | [] => [[]]
  | c :: rest =>
    match splitChar sep rest with
    | [] => [[c]]
    | h :: t => if c = sep then [] :: h :: t else (c :: h) :: t

/-- `ParseRecipient`: split on `'@'` (64) into exactly two parts, the
first on `'.'` (46) into exactly two parts, and base58-decode the
three pieces to 32 bytes each. -/
def ParseRecipient (s : List Nat) : Option Recipient :=
  match splitChar 64 s with
  | [p0, p1] =>
    match splitChar 46 p0 with
    | [c0, c1] =>
      match decodeBase58To32 c0, decodeBase58To32 c1, decodeBase58To32 p1 with
      | some ident, some enc, some gateway => some ⟨ident, enc, gateway⟩
      | _, _, _ => none
    | _ => none
  | _ => none

/-- `Recipient.String`: `ident.enc@gw`, each part base58. -/
def Recipient.String (r : Recipient) : List Nat :=
  base58Encode r.ClientIdentity ++ [46] ++
    base58Encode r.ClientEncryptionKey ++ [64] ++ base58Encode r.Gateway

/-! ## Peer identities (external dependency of the codec)

`decodeConnectionMessage` validates the trailing bytes through
`peer.IDFromBytes` (go-libp2p `core/peer`), which casts them to a
multihash via `multihash.Cast` (go-multihash); the varint reader is
`varint.FromUvarint` (go-varint).  These external functions are
embedded here because the codec's behaviour depends on them. -/

/-- `varint.FromUvarint`: read a minimally-encoded unsigned varint;
returns the value and the number of bytes consumed.  Fails on an
empty/never-terminated buffer, on more than 9 bytes, and on a
non-minimal encoding (a terminating zero byte after the first). -/
def fromUvarintAux : List Nat → Nat → Nat → Nat → Option (Nat × Nat)
  | [], _, _, _ => none
  | b :: rest, i, x, s =>
    if (i = 8 ∧ 128 ≤ b) ∨ 9 ≤ i then none
    else if b < 128 then
      if b = 0 ∧ 0 < s then none else some (x + b * 2 ^ s, i + 1)
    else fromUvarintAux rest (i + 1) (x + b % 128 * 2 ^ s) (s + 7)

def fromUvarint (buf : List Nat) : Option (Nat × Nat) := fromUvarintAux buf 0 0 0

/-- `multihash.Cast` validity: at least two bytes; a code uvarint and
a digest-length uvarint; digest length at most `MaxInt32`; exactly
`length` digest bytes remaining. -/
def validMultihash (b : List Nat) : Bool :=
  if b.length < 2 then false
  else
    match fromUvarint b with
    | none => false
    | some (_, n1) =>
      match fromUvarint (b.drop n1) with
      | none => false
      | some (len, n2) =>
        decide (len ≤ 2 ^ 31 - 1) && decide (b.length - n1 - n2 = len)

/-- `peer.IDFromBytes`: validate as multihash, return the bytes
unchanged as the peer id. -/
def IDFromBytes (b : List Nat) : Option (List Nat) :=
  if validMultihash b then some b else none

/-! ## Wire codec (`message/types.go`, `message/encoding.go`)

Top-level tags: ConnectionRequest = 0, ConnectionResponse = 1,
Transport = 2.  Substream tags: OpenRequest = 0, OpenResponse = 1,
Close = 2, Data = 3. -/

structure ConnectionMessage where
  PeerID : List Nat
  Recipient : Option Recipient
  ID : List Nat
  deriving DecidableEq, Repr

/-- Top-level `Message`: a tag plus the two optional payload pointers
of the Go struct.  The Go field `Type` is rendered `typ`. -/
structure Message where
  typ : Nat
  Connection : Option ConnectionMessage
  Transport : Option TransportMessage
  deriving DecidableEq, Repr

/-- `encodeConnectionMessage`: id, recipient-present flag, optional
96-byte recipient, trailing peer-id bytes. -/
def encodeConnectionMessage (cm : ConnectionMessage) : List Nat :=
  let flag : Nat := match cm.Recipient with | some _ => 1 | none => 0
  let recipientBytes : List Nat := match cm.Recipient with | some r => r.Bytes | none => []
  cm.ID ++ [flag] ++ recipientBytes ++ cm.PeerID

/-- `decodeConnectionMessage`. -/
def decodeConnectionMessage (data : List Nat) : Option ConnectionMessage :=
  if data.length < 33 then none
  else
    let id := data.take 32
    match data.drop 32 with
    | [] => none
    | flag :: rest =>
      let step : Option (Option Recipient × List Nat) :=
        if flag = 1 then
          if rest.length < 96 then none
          else
            match RecipientFromBytes (rest.take 96) with
            | none => none
            | some rec => some (some rec, rest.drop 96)
        else if flag ≠ 0 then none
        else some (none, rest)
      match step with
      | none => none
      | some (recipient, peerBytes) =>
        if peerBytes.isEmpty then none
        else
          match IDFromBytes peerBytes with
          | none => none
          | some pid => some ⟨pid, recipient, id⟩

/-- `binary.BigEndian.PutUint64`. -/
def putUint64 (n : Nat) : List Nat :=
  [n / 2 ^ 56 % 256, n / 2 ^ 48 % 256, n / 2 ^ 40 % 256, n / 2 ^ 32 % 256,
   n / 2 ^ 24 % 256, n / 2 ^ 16 % 256, n / 2 ^ 8 % 256, n % 256]

/-- `binary.BigEndian.Uint64` on an 8-byte buffer. -/
def beUint64 (b : List Nat) : Nat := b.foldl (fun acc x => acc * 256 + x) 0

/-- `encodeSubstreamMessage`: id, tag byte, payload. -/
def encodeSubstreamMessage (sm : SubstreamMessage) : List Nat :=
  sm.ID ++ [sm.typ] ++ sm.Data

/-- `decodeSubstreamMessage`: control tags require an empty payload;
Data keeps the rest. -/
def decodeSubstreamMessage (data : List Nat) : Option SubstreamMessage :=
  if data.length < 33 then none
  else
    match data.drop 32 with
    | [] => none
    | t :: payload =>
      if t = 0 ∨ t = 1 ∨ t = 2 then
        if ¬payload.isEmpty then none
        else some ⟨data.take 32, t, []⟩
      else if t = 3 then some ⟨data.take 32, t, payload⟩
      else none

/-- `encodeTransportMessage`: 8-byte big-endian nonce, connection id,
substream message. -/
def encodeTransportMessage (tm : TransportMessage) : List Nat :=
  putUint64 tm.Nonce ++ tm.ID ++ encodeSubstreamMessage tm.Message

/-- `decodeTransportMessage`. -/
def decodeTransportMessage (data : List Nat) : Option TransportMessage :=
  if data.length < 73 then none
  else
    let nonce := beUint64 (data.take 8)
    let id := (data.drop 8).take 32
    match decodeSubstreamMessage (data.drop 40) with
    | none => none
    | some sub => some ⟨nonce, sub, id⟩

/-- `message.Encode`: tag byte plus payload; fails on a missing
payload pointer or an unknown tag. -/
def Encode (msg : Message) : Option (List Nat) :=
  if msg.typ = 0 ∨ msg.typ = 1 then
    match msg.Connection with
    | none => none
    | some cm => some (msg.typ :: encodeConnectionMessage cm)
  else if msg.typ = 2 then
    match msg.Transport with
    | none => none
    | some tm => some (msg.typ :: encodeTransportMessage tm)
  else none

/-- `message.Decode`. -/
def Decode (data : List Nat) : Option Message :=
  match data with
  | [] => none
  | t :: payload =>
    if t = 0 ∨ t = 1 then
      match decodeConnectionMessage payload with
      | none => none
      | some cm => some ⟨t, some cm, none⟩
    else if t = 2 then
      match decodeTransportMessage payload with
      | none => none
      | some tm => some ⟨t, none, some tm⟩
    else none

/-! ### Well-formed messages (§3 of the spec, used for round-trips) -/

def ConnectionMessage.WF (cm : ConnectionMessage) : Bool :=
  (cm.ID.length == 32) && bytesWF cm.ID &&
  (match cm.Recipient with | some r => r.WF | none => true) &&
  !cm.PeerID.isEmpty && bytesWF cm.PeerID && validMultihash cm.PeerID

def SubstreamMessage.WF (sm : SubstreamMessage) : Bool :=
  (sm.ID.length == 32) && bytesWF sm.ID &&
  (sm.typ == 0 || sm.typ == 1 || sm.typ == 2 || sm.typ == 3) &&
  (sm.typ == 3 || sm.Data.isEmpty) && bytesWF sm.Data

def TransportMessage.WF (tm : TransportMessage) : Bool :=
  decide (tm.Nonce < 2 ^ 64) && (tm.ID.length == 32) && bytesWF tm.ID && tm.Message.WF

def Message.WF (m : Message) : Bool :=
  match m.typ, m.Connection, m.Transport with
  | 0, some cm, none => cm.WF
  | 1, some cm, none => cm.WF
  | 2, none, some tm => tm.WF
  | _, _, _ => false

/-! ## Gateway requests (`mixnet/message.go`) -/

/-- `copy(buf[off:], src)` when `src` fits. -/
def writeAt (buf : List Nat) (off : Nat) (src : List Nat) : List Nat :=
  buf.take off ++ src ++ buf.drop (off + src.length)

/-- `serializeSendRequest`: allocate a zeroed buffer of size
`1 + 96 + 8 + 8 + len(payload)`, write the send tag (0x00) at 0, the
recipient at 1, leave the 8 connection-id bytes zero, write the
big-endian payload length at 105 and the payload at 113. -/
def serializeSendRequest (recipient : Recipient) (payload : List Nat) : List Nat :=
  let size := 1 + 96 + 8 + 8 + payload.length
  let buf0 := List.replicate size 0
  let buf1 := writeAt buf0 0 [0]
  let buf2 := writeAt buf1 1 recipient.Bytes
  let buf3 := writeAt buf2 105 (putUint64 payload.length)
  writeAt buf3 113 payload

/-! ## Transport index state (`transport/transport.go`)

The claims about the transport concern its two maps keyed by
`connKey` (the hex rendering of the 32-byte ConnectionID — injective,
so the raw id serves as the key here): `pendingDials` and
`connections`.  Map reads/writes happen under `t.mu`; each critical
section becomes one atomic step on this state. -/

structure dialState where
  remoteRecipient : Recipient
  deriving DecidableEq, Repr

/-- The `Conn` fields the transport index stores (channels and
synchronisation state are omitted; they carry no map keys). -/
structure ConnState where
  id : List Nat
  remotePeer : List Nat
  remoteRecipient : Recipient
  deriving DecidableEq, Repr

structure TransportState where
  pendingDials : List (List Nat × dialState)
  connections : List (List Nat × ConnState)
  deriving DecidableEq, Repr

/-- Go map membership. -/
def mapHas (k : List Nat) (m : List (List Nat × α)) : Bool :=
  m.any (fun e => e.1 == k)

/-- Go map assignment (overwrite or append). -/
def mapSet (k : List Nat) (v : α) : List (List Nat × α) → List (List Nat × α)
  | [] => [(k, v)]
  | e :: rest => if e.1 = k then (k, v) :: rest else e :: mapSet k v rest

/-- Go `delete`. -/
def mapDelete (k : List Nat) (m : List (List Nat × α)) : List (List Nat × α) :=
  m.filter (fun e => e.1 != k)

/-- The pending-dial registration section of `Transport.Dial`:
fail on a colliding pending dial, otherwise register. -/
def dialRegister (t : TransportState) (connID : List Nat) (remote : Recipient) :
    TransportState × Bool :=
  if mapHas connID t.pendingDials then (t, false)
  else ({ t with pendingDials := mapSet connID ⟨remote⟩ t.pendingDials }, true)

/-- `Transport.removePendingDial`. -/
def removePendingDial (t : TransportState) (connID : List Nat) : TransportState :=
  { t with pendingDials := mapDelete connID t.pendingDials }

/-- `Transport.handleConnectionRequest` (map effects): require a
recipient, discard when a connection with this id exists, otherwise
index a new connection. -/
def handleConnectionRequest (t : TransportState) (cm : ConnectionMessage) : TransportState :=
  match cm.Recipient with
  | none => t
  | some rec =>
    if mapHas cm.ID t.connections then t
    else { t with connections := mapSet cm.ID ⟨cm.ID, cm.PeerID, rec⟩ t.connections }

/-- `Transport.handleConnectionResponse` (map effects): discard when
no pending dial matches, otherwise remove the pending dial and index
the new connection. -/
def handleConnectionResponse (t : TransportState) (cm : ConnectionMessage) : TransportState :=
  match t.pendingDials.find? (fun e => e.1 == cm.ID) with
  | none => t
  | some (_, st) =>
    { t with
      pendingDials := mapDelete cm.ID t.pendingDials,
      connections := mapSet cm.ID ⟨cm.ID, cm.PeerID, st.remoteRecipient⟩ t.connections }

/-- `Transport.removeConnection` (called from `Conn.Close`). -/
def removeConnection (t : TransportState) (connID : List Nat) : TransportState :=
  { t with connections := mapDelete connID t.connections }

/-- `Transport.Close` (map effects): drain both maps. -/
def closeTransport (_ : TransportState) : TransportState := ⟨[], []⟩

/-- One atomic step of the transport state, with the ConnectionIDs
arbitrary inputs. -/
inductive TStep : TransportState → TransportState → Prop
  | dial (t : TransportState) (id : List Nat) (rec : Recipient) :
      TStep t (dialRegister t id rec).1
  | removeDial (t : TransportState) (id : List Nat) : TStep t (removePendingDial t id)
  | connRequest (t : TransportState) (cm : ConnectionMessage) :
      TStep t (handleConnectionRequest t cm)
  | connResponse (t : TransportState) (cm : ConnectionMessage) :
      TStep t (handleConnectionResponse t cm)
  | removeConn (t : TransportState) (id : List Nat) : TStep t (removeConnection t id)
  | close (t : TransportState) : TStep t (closeTransport t)

/-- A step restricted by the freshness side conditions under which the
no-coexistence invariant is preserved: a dial never registers an id
currently held by a live connection, and a handled ConnectionRequest
never carries an id currently held by a pending dial. -/
inductive TStepSafe : TransportState → TransportState → Prop
  | dial (t : TransportState) (id : List Nat) (rec : Recipient)
      (h : mapHas id t.connections = false) : TStepSafe t (dialRegister t id rec).1
  | removeDial (t : TransportState) (id : List Nat) : TStepSafe t (removePendingDial t id)
  | connRequest (t : TransportState) (cm : ConnectionMessage)
      (h : mapHas cm.ID t.pendingDials = false) : TStepSafe t (handleConnectionRequest t cm)
  | connResponse (t : TransportState) (cm : ConnectionMessage) :
      TStepSafe t (handleConnectionResponse t cm)
  | removeConn (t : TransportState) (id : List Nat) : TStepSafe t (removeConnection t id)
  | close (t : TransportState) : TStepSafe t (closeTransport t)

/-- No ConnectionID keys both maps. -/
def NoCoexist (t : TransportState) : Prop :=
  ∀ k, ¬(mapHas k t.pendingDials = true ∧ mapHas k t.connections = true)

/-- The fresh transport state built by `newWithMixnet`. -/
def initialTransport : TransportState := ⟨[], []⟩

/-! ## Substream (`transport/substream.go`)

One substream's state: the buffered inbound channel (capacity 32),
its closed flag, the `channelOnce` guard plus a counter witnessing how
many times `close(inbound)` ran, the read-residual buffer and the two
closed flags. -/

structure Substream where
  inbound : List (List Nat)
  inboundClosed : Bool
  closeOnceDone : Bool
  closeCount : Nat
  buffer : List Nat
  localClosed : Bool
  remoteClosed : Bool
  deriving DecidableEq, Repr

/-- `newSubstream`. -/
def newSubstream : Substream := ⟨[], false, false, 0, [], false, false⟩

/-- `s.channelOnce.Do(func() { close(s.inbound) })`. -/
def closeInboundOnce (s : Substream) : Substream :=
  if s.closeOnceDone then s
  else { s with closeOnceDone := true, inboundClosed := true, closeCount := s.closeCount + 1 }

inductive ReadResult where
  /-- `Read` returned these bytes with a nil error. -/
  | bytes (data : List Nat)
  /-- `Read` returned `(0, io.EOF)`. -/
  | eof
  /-- `Read` blocks on the inbound channel. -/
  | wouldBlock
  deriving DecidableEq, Repr

/-- `Substream.Read` with a buffer of size `n`.  A receive from the
closed-but-nonempty channel still yields the queued chunk (Go channel
semantics); a receive from the closed empty channel yields `io.EOF`;
a receive from the open empty channel blocks. -/
def Substream.Read (s : Substream) (n : Nat) : ReadResult × Substream :=
  if n = 0 then (.bytes [], s)
  else if s.buffer.isEmpty then
    match s.inbound with
    | [] => if s.inboundClosed then (.eof, s) else (.wouldBlock, s)
    | data :: rest =>
      if data.isEmpty then (.bytes [], { s with inbound := rest })
      else (.bytes (data.take n), { s with inbound := rest, buffer := data.drop n })
  else (.bytes (s.buffer.take n), { s with buffer := s.buffer.drop n })

inductive WriteResult where
  /-- `Write` returned `(n, nil)`. -/
  | ok (n : Nat)
  /-- `Write` returned the `substream closed` error. -/
  | streamClosedErr
  /-- The underlying mixnet send failed and `Write` returned `(0, err)`. -/
  | sendFailedErr
  deriving DecidableEq, Repr

/-- `Substream.Write`: fail on a locally closed stream; otherwise send
a Data frame carrying (a copy of) the caller's bytes via
`Conn.sendData` and report the full length.  `sendOk` abstracts the
success of the underlying mixnet send; the second component lists the
frames handed to the mixnet. -/
def Substream.Write (s : Substream) (id : List Nat) (sendOk : Bool) (p : List Nat) :
    WriteResult × List SubstreamMessage :=
  if s.localClosed then (.streamClosedErr, [])
  else if sendOk then (.ok p.length, [⟨id, 3, p⟩])
  else (.sendFailedErr, [])

/-- `Substream.closeWithControl`: no-op when already locally closed;
otherwise mark local-closed, send a Close frame through
`Conn.closeLocalStream` (skipped when the connection is closed), mark
remote-closed and close the inbound channel through `channelOnce`.
Returns the new state and the frames sent. -/
def Substream.closeWithControl (s : Substream) (connClosed : Bool) (sendControl : Bool)
    (id : List Nat) : Substream × List SubstreamMessage :=
  if s.localClosed then (s, [])
  else
    let frames : List SubstreamMessage :=
      if sendControl ∧ ¬connClosed then [⟨id, 2, []⟩] else []
    (closeInboundOnce { s with localClosed := true, remoteClosed := true }, frames)

/-- `Substream.Close` = `closeWithControl(true)`. -/
def Substream.Close (s : Substream) (connClosed : Bool) (id : List Nat) :
    Substream × List SubstreamMessage :=
  s.closeWithControl connClosed true id

/-- `Substream.pushData`: drop the chunk when either closed flag is
set; drop it when the connection's close channel is closed (the Go
`select` can then take that branch; it is also the branch the
recovered send-on-closed-channel panic reduces to); enqueue when the
channel has room; `none` models the blocked send (channel full,
connection open). -/
def Substream.pushData (s : Substream) (connClosedCh : Bool) (data : List Nat) :
    Option Substream :=
  if s.remoteClosed || s.localClosed then some s
  else if connClosedCh then some s
  else if s.inboundClosed then some s
  else if s.inbound.length < 32 then some { s with inbound := s.inbound ++ [data] }
  else none

/-- `Substream.remoteClose`. -/
def Substream.remoteClose (s : Substream) : Substream :=
  if s.remoteClosed then s
  else closeInboundOnce { s with remoteClosed := true }

/-! # Theorems

## Reordering-queue lemmas -/

namespace MessageQueue

theorem mem_map_insertLocked (msg : TransportMessage) (l : List TransportMessage) (m : Nat) :
    m ∈ (insertLocked msg l).map TransportMessage.Nonce ↔
      m = msg.Nonce ∨ m ∈ l.map TransportMessage.Nonce := by
  induction l with
  | nil => simp [insertLocked]
  | cons x xs ih =>
    by_cases h1 : x.Nonce < msg.Nonce
    · simp only [insertLocked, if_pos h1, List.map_cons, List.mem_cons, ih]
      tauto
    · by_cases h2 : x.Nonce = msg.Nonce
      · simp only [insertLocked, if_neg h1, if_pos h2, List.map_cons, List.mem_cons]
        rw [h2]
        tauto
      · simp only [insertLocked, if_neg h1, if_neg h2, List.map_cons, List.mem_cons]

theorem pairwise_insertLocked (msg : TransportMessage) (l : List TransportMessage)
    (hp : List.Pairwise (· < ·) (l.map TransportMessage.Nonce)) :
    List.Pairwise (· < ·) ((insertLocked msg l).map TransportMessage.Nonce) := by
  induction l with
  | nil => simp [insertLocked]
  | cons x xs ih =>
    rw [List.map_cons, List.pairwise_cons] at hp
    obtain ⟨hx, hxs⟩ := hp
    by_cases h1 : x.Nonce < msg.Nonce
    · simp only [insertLocked, if_pos h1, List.map_cons, List.pairwise_cons]
      refine ⟨fun a ha => ?_, ih hxs⟩
      rcases (mem_map_insertLocked msg xs a).1 ha with rfl | h
      · exact h1
      · exact hx a h
    · by_cases h2 : x.Nonce = msg.Nonce
      · simp only [insertLocked, if_neg h1, if_pos h2, List.map_cons, List.pairwise_cons]
        exact ⟨fun a ha => h2 ▸ hx a ha, hxs⟩
      · have h3 : msg.Nonce < x.Nonce := by omega
        simp only [insertLocked, if_neg h1, if_neg h2, List.map_cons, List.pairwise_cons]
        refine ⟨fun a ha => ?_, hx, hxs⟩
        rcases List.mem_cons.1 ha with rfl | h
        · exact h3
        · exact h3.trans (hx a h)

theorem insertLocked_perm (msg : TransportMessage) (l : List TransportMessage)
    (hnot : msg.Nonce ∉ l.map TransportMessage.Nonce) :
    List.Perm (insertLocked msg l) (msg :: l) := by
  induction l with
  | nil => simp [insertLocked]
  | cons x xs ih =>
    simp only [List.map_cons, List.mem_cons, not_or] at hnot
    obtain ⟨hne, hnotxs⟩ := hnot
    by_cases h1 : x.Nonce < msg.Nonce
    · have hstep : insertLocked msg (x :: xs) = x :: insertLocked msg xs := by
        simp [insertLocked, h1]
      rw [hstep]
      exact ((ih hnotxs).cons x).trans (List.Perm.swap msg x xs)
    · have h2 : ¬x.Nonce = msg.Nonce := fun h => hne h.symm
      simp [insertLocked, h1, h2]

theorem Pop_eq_none (q : MessageQueue) (h : (Pop q).1 = none) : Pop q = (none, q) := by
  unfold Pop at h ⊢
  by_cases h0 : q.nextExpectedNonce = 0
  · simp [h0]
  · simp only [if_neg h0] at h ⊢
    cases hp : q.pending with
    | nil => simp
    | cons m rest =>
      rw [hp] at h
      by_cases hm : m.Nonce = q.nextExpectedNonce
      · simp [hm] at h
      · simp [hm]

theorem popLoop_none (fuel : Nat) (q : MessageQueue) (h : (Pop q).1 = none) :
    popLoop fuel q = ([], q) := by
  cases fuel with
  | zero => rfl
  | succ n => simp only [popLoop, Pop_eq_none q h]

theorem popLoop_spec (pending : List TransportMessage) (next : Nat) (hnext : 1 ≤ next) :
    ∃ j, j ≤ pending.length ∧
      popLoop pending.length ⟨next, pending⟩ =
        (pending.take j, ⟨next + j, pending.drop j⟩) ∧
      (pending.take j).map TransportMessage.Nonce = List.range' next j ∧
      ∀ m ∈ (pending.drop j).head?, m.Nonce ≠ next + j := by
  induction pending generalizing next with
  | nil => exact ⟨0, by simp, by simp [popLoop], by simp, by simp⟩
  | cons x rest ih =>
    by_cases hx : x.Nonce = next
    · obtain ⟨j, hj, heq, hmap, hstop⟩ := ih (next + 1) (by omega)
      have hpop : Pop ⟨next, x :: rest⟩ = (some x, ⟨next + 1, rest⟩) := by
        simp [Pop, hx, show ¬(next = 0) by omega]
      refine ⟨j + 1, by simp; omega, ?_, ?_, ?_⟩
      · rw [List.length_cons]
        simp only [popLoop, hpop, heq]
        rw [List.take_succ_cons, List.drop_succ_cons]
        refine Prod.ext rfl ?_
        show (⟨next + 1 + j, rest.drop j⟩ : MessageQueue) = ⟨next + (j + 1), rest.drop j⟩
        congr 1
        omega
      · rw [List.take_succ_cons, List.map_cons, hmap, List.range'_succ, hx]
      · rw [List.drop_succ_cons]
        intro m hm
        have := hstop m hm
        omega
    · have hpop : (Pop ⟨next, x :: rest⟩).1 = none := by
        simp [Pop, hx, show ¬(next = 0) by omega]
      refine ⟨0, by simp, ?_, by simp, ?_⟩
      · rw [popLoop_none _ _ hpop]
        simp
      · simp only [List.drop_zero, List.head?_cons, Option.mem_def, Option.some.injEq]
        intro m hm
        subst hm
        omega

theorem Inv_congr (p1 p2 : List Nat) (q : MessageQueue) (h : ∀ m, m ∈ p1 ↔ m ∈ p2)
    (hInv : Inv p1 q) : Inv p2 q := by
  obtain ⟨h1, h2, h3, h4, h5⟩ := hInv
  exact ⟨h1, fun hc => h2 ((h _).2 hc), fun m hm hlt => (h m).1 (h3 m hm hlt), h4,
    fun m => (h5 m).trans (by rw [h m])⟩

/-- One `handleTransportMessage` step preserves the invariant and
releases exactly the nonces from the old to the new next-expected
value, in ascending order. -/
theorem handle_step (pushed : List Nat) (q : MessageQueue) (f : TransportMessage)
    (hInv : Inv pushed q) (hnew : f.Nonce ∉ pushed) (hpos : 1 ≤ f.Nonce) :
    Inv (f.Nonce :: pushed) (handleTransportMessage q f).2 ∧
    q.nextExpectedNonce ≤ (handleTransportMessage q f).2.nextExpectedNonce ∧
    (handleTransportMessage q f).1.map TransportMessage.Nonce =
      List.range' q.nextExpectedNonce
        ((handleTransportMessage q f).2.nextExpectedNonce - q.nextExpectedNonce) := by
  obtain ⟨next, pending⟩ := q
  obtain ⟨h1, h2, h3, h4, h5⟩ := hInv
  simp only [pnonces] at h4 h5
  simp only at h1 h2 h3 ⊢
  rcases Nat.lt_trichotomy f.Nonce next with hlt | heq | hgt
  · exact absurd (h3 f.Nonce hpos hlt) hnew
  · -- f carries the expected nonce: released, then the run is drained
    have htp : TryPush ⟨next, pending⟩ f = (some f, true, ⟨next + 1, pending⟩) := by
      simp [TryPush, heq, show ¬(next = 0) by omega]
    obtain ⟨j, hj, heq2, hmap, hstop⟩ := popLoop_spec pending (next + 1) (by omega)
    have hout : handleTransportMessage ⟨next, pending⟩ f =
        (f :: pending.take j, ⟨next + 1 + j, pending.drop j⟩) := by
      simp only [handleTransportMessage, htp]
      rw [heq2]
      rfl
    rw [hout]
    dsimp only
    have hpendsplit : pending.map TransportMessage.Nonce =
        (pending.take j).map TransportMessage.Nonce ++
          (pending.drop j).map TransportMessage.Nonce := by
      rw [← List.map_append, List.take_append_drop]
    have hnd : (pending.map TransportMessage.Nonce).Nodup :=
      h4.imp (fun {a b} hab => Nat.ne_of_lt hab)
    have hdisj : ∀ m, m ∈ (pending.take j).map TransportMessage.Nonce →
        m ∈ (pending.drop j).map TransportMessage.Nonce → False := by
      intro m hm1 hm2
      rw [hpendsplit] at hnd
      exact (List.disjoint_of_nodup_append hnd) hm1 hm2
    -- every still-buffered nonce is at least next + 1 + j
    have hge : ∀ m, m ∈ (pending.drop j).map TransportMessage.Nonce → next + 1 + j ≤ m := by
      intro m hm
      have hmem : m ∈ pending.map TransportMessage.Nonce := by
        rw [hpendsplit]; exact List.mem_append_right _ hm
      have hmp := (h5 m).1 hmem
      have hmne : m ≠ next := fun h => h2 (h ▸ hmp.1)
      by_contra hcon
      have : m ∈ List.range' (next + 1) j := by
        rw [List.mem_range'_1]
        omega
      exact hdisj m (hmap ▸ this) hm
    -- next + 1 + j is not buffered
    have hstop' : ∀ a ∈ ((pending.drop j).map TransportMessage.Nonce).head?, a ≠ next + 1 + j := by
      rw [List.head?_map]
      intro a ha
      cases hh : (pending.drop j).head? with
      | none => rw [hh] at ha; exact absurd ha (by simp)
      | some x =>
        rw [hh] at ha
        simp only [Option.map_some', Option.mem_def, Option.some.injEq] at ha
        subst ha
        exact hstop x (by rw [hh]; rfl)
    have hnotnext : next + 1 + j ∉ (pending.drop j).map TransportMessage.Nonce := by
      intro hmem
      have hpair : List.Pairwise (· < ·) ((pending.drop j).map TransportMessage.Nonce) :=
        List.Pairwise.sublist ((List.drop_sublist j pending).map _) h4
      cases hdm : (pending.drop j).map TransportMessage.Nonce with
      | nil => rw [hdm] at hmem; exact absurd hmem (List.not_mem_nil _)
      | cons hd tl =>
        have hhd : hd ≠ next + 1 + j := hstop' hd (by rw [hdm]; rfl)
        rw [hdm] at hmem hpair
        rcases List.mem_cons.1 hmem with hl | hr
        · exact hhd hl.symm
        · have hhdge : next + 1 + j ≤ hd := hge hd (by rw [hdm]; exact List.mem_cons_self _ _)
          have := (List.pairwise_cons.1 hpair).1 _ hr
          omega
    simp only [Inv, pnonces]
    refine ⟨⟨by omega, ?_, ?_, ?_, ?_⟩, by omega, ?_⟩
    · -- next + 1 + j is not pushed
      intro hmem
      rcases List.mem_cons.1 hmem with hl | hr
      · omega
      · have : next + 1 + j ∈ pending.map TransportMessage.Nonce :=
          (h5 _).2 ⟨hr, by omega⟩
        rw [hpendsplit] at this
        rcases List.mem_append.1 this with hx | hx
        · rw [hmap, List.mem_range'_1] at hx
          omega
        · exact hnotnext hx
    · -- everything below next + 1 + j has been pushed
      intro m hm hlt
      rcases Nat.lt_trichotomy m next with hc | hc | hc
      · exact List.mem_cons_of_mem _ (h3 m hm hc)
      · exact List.mem_cons.2 (Or.inl (by omega))
      · have : m ∈ List.range' (next + 1) j := by rw [List.mem_range'_1]; omega
        have : m ∈ (pending.take j).map TransportMessage.Nonce := hmap ▸ this
        have : m ∈ pending.map TransportMessage.Nonce := by
          rw [hpendsplit]; exact List.mem_append_left _ this
        exact List.mem_cons_of_mem _ ((h5 m).1 this).1
    · -- sortedness of the remaining buffer
      exact List.Pairwise.sublist ((List.drop_sublist j pending).map _) h4
    · -- characterisation of the remaining buffer
      intro m
      constructor
      · intro hm
        have hmem : m ∈ pending.map TransportMessage.Nonce := by
          rw [hpendsplit]; exact List.mem_append_right _ hm
        exact ⟨List.mem_cons_of_mem _ ((h5 m).1 hmem).1, hge m hm⟩
      · rintro ⟨hm, hgem⟩
        rcases List.mem_cons.1 hm with hl | hr
        · omega
        · have : m ∈ pending.map TransportMessage.Nonce := (h5 m).2 ⟨hr, by omega⟩
          rw [hpendsplit] at this
          rcases List.mem_append.1 this with hx | hx
          · rw [hmap, List.mem_range'_1] at hx
            omega
          · exact hx
    · -- here the released nonces are next, next+1, ..., next+j
      have harith : next + 1 + j - next = j + 1 := by omega
      rw [harith, List.map_cons, hmap, List.range'_succ, heq]
  · -- f is ahead of the expected nonce: buffered, nothing released
    have hany : pending.any (fun x => x.Nonce = f.Nonce) = false := by
      rw [List.any_eq_false]
      intro x hx heq
      have : f.Nonce ∈ pending.map TransportMessage.Nonce := by
        rw [decide_eq_true_eq] at heq
        exact heq ▸ List.mem_map_of_mem _ hx
      exact hnew ((h5 _).1 this).1
    have htp : TryPush ⟨next, pending⟩ f =
        (none, false, ⟨next, insertLocked f pending⟩) := by
      simp [TryPush, hany, show ¬(next = 0) by omega, show ¬(f.Nonce = next) by omega,
        show ¬(f.Nonce < next) by omega]
    have hpopnone : (Pop ⟨next, insertLocked f pending⟩).1 = none := by
      unfold Pop
      simp only [if_neg (show ¬(next = 0) by omega)]
      cases hi : insertLocked f pending with
      | nil => rfl
      | cons y ys =>
        have hy : y.Nonce ∈ (insertLocked f pending).map TransportMessage.Nonce := by
          rw [hi]; exact List.mem_cons_self _ _
        rcases (mem_map_insertLocked f pending _).1 hy with hl | hr
        · simp only [if_neg (show ¬(y.Nonce = next) by omega)]
        · have : y.Nonce ∈ pending.map TransportMessage.Nonce := hr
          have := (h5 _).1 this
          have hyne : y.Nonce ≠ next := fun h => h2 (h ▸ this.1)
          simp only [if_neg hyne]
    have hout : handleTransportMessage ⟨next, pending⟩ f =
        ([], ⟨next, insertLocked f pending⟩) := by
      simp only [handleTransportMessage, htp]
      rw [popLoop_none _ _ hpopnone]
      rfl
    rw [hout]
    simp only [Inv, pnonces]
    refine ⟨⟨h1, ?_, ?_, ?_, ?_⟩, le_refl _, by simp⟩
    · intro hmem
      rcases List.mem_cons.1 hmem with hl | hr
      · omega
      · exact h2 hr
    · exact fun m hm hlt => List.mem_cons_of_mem _ (h3 m hm hlt)
    · exact pairwise_insertLocked f pending h4
    · intro m
      rw [mem_map_insertLocked]
      constructor
      · rintro (rfl | hr)
        · exact ⟨List.mem_cons_self _ _, by omega⟩
        · have := (h5 m).1 hr
          exact ⟨List.mem_cons_of_mem _ this.1, this.2⟩
      · rintro ⟨hm, hgem⟩
        rcases List.mem_cons.1 hm with hl | hr
        · exact Or.inl hl
        · exact Or.inr ((h5 m).2 ⟨hr, hgem⟩)

/-- Processing a batch of fresh, distinct-nonce frames preserves the
invariant and releases exactly the nonce run from the initial to the
final next-expected value. -/
theorem processAll_spec (frames : List TransportMessage) (pushed : List Nat) (q : MessageQueue)
    (hInv : Inv pushed q)
    (hfresh : ∀ f ∈ frames, f.Nonce ∉ pushed ∧ 1 ≤ f.Nonce)
    (hnodup : (frames.map TransportMessage.Nonce).Nodup) :
    Inv (frames.map TransportMessage.Nonce ++ pushed) (processAll q frames).2 ∧
    q.nextExpectedNonce ≤ (processAll q frames).2.nextExpectedNonce ∧
    (processAll q frames).1.map TransportMessage.Nonce =
      List.range' q.nextExpectedNonce
        ((processAll q frames).2.nextExpectedNonce - q.nextExpectedNonce) := by
  induction frames generalizing pushed q with
  | nil => simpa [processAll] using hInv
  | cons f fs ih =>
    obtain ⟨hInv1, hle1, hmap1⟩ :=
      handle_step pushed q f hInv (hfresh f (List.mem_cons_self _ _)).1
        (hfresh f (List.mem_cons_self _ _)).2
    rw [List.map_cons, List.nodup_cons] at hnodup
    obtain ⟨hfn, hnodup'⟩ := hnodup
    have hfresh' : ∀ g ∈ fs, g.Nonce ∉ f.Nonce :: pushed ∧ 1 ≤ g.Nonce := by
      intro g hg
      refine ⟨?_, (hfresh g (List.mem_cons_of_mem _ hg)).2⟩
      intro hmem
      rcases List.mem_cons.1 hmem with hl | hr
      · exact hfn (hl ▸ List.mem_map_of_mem _ hg)
      · exact (hfresh g (List.mem_cons_of_mem _ hg)).1 hr
    obtain ⟨hInv2, hle2, hmap2⟩ :=
      ih (f.Nonce :: pushed) (handleTransportMessage q f).2 hInv1 hfresh' hnodup'
    have hout : processAll q (f :: fs) =
        ((handleTransportMessage q f).1 ++ (processAll (handleTransportMessage q f).2 fs).1,
         (processAll (handleTransportMessage q f).2 fs).2) := by
      simp only [processAll]
    rw [hout]
    dsimp only
    refine ⟨?_, by omega, ?_⟩
    · refine Inv_congr _ _ _ (fun m => ?_) hInv2
      simp only [List.mem_append, List.mem_cons, List.map_cons]
      tauto
    · rw [List.map_append, hmap1, hmap2]
      have key := List.range'_append_1 q.nextExpectedNonce
        ((handleTransportMessage q f).2.nextExpectedNonce - q.nextExpectedNonce)
        ((processAll (handleTransportMessage q f).2 fs).2.nextExpectedNonce -
          (handleTransportMessage q f).2.nextExpectedNonce)
      rw [show q.nextExpectedNonce +
            ((handleTransportMessage q f).2.nextExpectedNonce - q.nextExpectedNonce) =
          (handleTransportMessage q f).2.nextExpectedNonce by omega] at key
      rw [key]
      congr 1
      omega

/-- Pushing into an unarmed queue buffers every frame, returns
`(none, false)` every time, and leaves the queue unarmed with the
frames folded into the sorted buffer. -/
theorem pushAll_unarmed (frames : List TransportMessage) (pending : List TransportMessage) :
    pushAll ⟨0, pending⟩ frames =
      (List.replicate frames.length (none, false),
       ⟨0, frames.foldl (fun acc f => insertLocked f acc) pending⟩) := by
  induction frames generalizing pending with
  | nil => simp [pushAll]
  | cons f fs ih =>
    have htp : TryPush ⟨0, pending⟩ f = (none, false, ⟨0, insertLocked f pending⟩) := by
      simp [TryPush]
    simp only [pushAll, htp, List.length_cons, List.replicate_succ, List.foldl_cons]
    rw [ih (insertLocked f pending)]

/-- When the buffered nonces are exactly the run starting at the
expected nonce, the drain loop releases everything. -/
theorem popLoop_all (pending : List TransportMessage) (next : Nat) (hnext : 1 ≤ next)
    (hmap : pending.map TransportMessage.Nonce = List.range' next pending.length) :
    popLoop pending.length ⟨next, pending⟩ = (pending, ⟨next + pending.length, []⟩) := by
  induction pending generalizing next with
  | nil => simp [popLoop]
  | cons x rest ih =>
    rw [List.map_cons, List.length_cons, List.range'_succ] at hmap
    have hx : x.Nonce = next := (List.cons.injEq _ _ _ _ ▸ hmap).1
    have hrest : rest.map TransportMessage.Nonce = List.range' (next + 1) rest.length :=
      (List.cons.injEq _ _ _ _ ▸ hmap).2
    have hpop : Pop ⟨next, x :: rest⟩ = (some x, ⟨next + 1, rest⟩) := by
      simp [Pop, hx, show ¬(next = 0) by omega]
    rw [List.length_cons]
    simp only [popLoop, hpop]
    rw [ih (next + 1) (by omega) hrest]
    refine Prod.ext rfl ?_
    show (⟨next + 1 + rest.length, []⟩ : MessageQueue) = ⟨next + (rest.length + 1), []⟩
    congr 1
    omega

theorem foldl_insert_mem (frames : List TransportMessage) (acc0 : List TransportMessage)
    (m : Nat) :
    m ∈ (frames.foldl (fun acc f => insertLocked f acc) acc0).map TransportMessage.Nonce ↔
      m ∈ acc0.map TransportMessage.Nonce ∨ m ∈ frames.map TransportMessage.Nonce := by
  induction frames generalizing acc0 with
  | nil => simp
  | cons f fs ih =>
    simp only [List.foldl_cons, List.map_cons, List.mem_cons]
    rw [ih (insertLocked f acc0), mem_map_insertLocked]
    tauto

theorem foldl_insert_pairwise (frames : List TransportMessage) (acc0 : List TransportMessage)
    (hp : List.Pairwise (· < ·) (acc0.map TransportMessage.Nonce)) :
    List.Pairwise (· < ·)
      ((frames.foldl (fun acc f => insertLocked f acc) acc0).map TransportMessage.Nonce) := by
  induction frames generalizing acc0 with
  | nil => exact hp
  | cons f fs ih => exact ih _ (pairwise_insertLocked f acc0 hp)

theorem foldl_insert_perm (frames : List TransportMessage) (acc0 : List TransportMessage)
    (hnodup : (acc0.map TransportMessage.Nonce ++ frames.map TransportMessage.Nonce).Nodup) :
    List.Perm (frames.foldl (fun acc f => insertLocked f acc) acc0) (acc0 ++ frames) := by
  induction frames generalizing acc0 with
  | nil => simp
  | cons f fs ih =>
    simp only [List.foldl_cons]
    have hf : f.Nonce ∉ acc0.map TransportMessage.Nonce := by
      intro hc
      have h1 : f.Nonce ∈ f.Nonce :: (acc0.map TransportMessage.Nonce ++
          fs.map TransportMessage.Nonce) := List.mem_cons_self _ _
      have hperm : List.Perm
          (acc0.map TransportMessage.Nonce ++ (f.Nonce :: fs.map TransportMessage.Nonce))
          (f.Nonce :: (acc0.map TransportMessage.Nonce ++ fs.map TransportMessage.Nonce)) :=
        List.perm_middle
      have hnd2 := hperm.nodup_iff.1 (by simpa using hnodup)
      rw [List.nodup_cons] at hnd2
      exact hnd2.1 (List.mem_append_left _ hc)
    have hinsperm : List.Perm (insertLocked f acc0) (f :: acc0) := insertLocked_perm f acc0 hf
    have hnd3 : ((insertLocked f acc0).map TransportMessage.Nonce ++
        fs.map TransportMessage.Nonce).Nodup := by
      have hmapperm : List.Perm
          ((insertLocked f acc0).map TransportMessage.Nonce ++ fs.map TransportMessage.Nonce)
          (acc0.map TransportMessage.Nonce ++ (f.Nonce :: fs.map TransportMessage.Nonce)) := by
        refine List.Perm.trans (List.Perm.append_right _ (hinsperm.map _)) ?_
        exact List.perm_middle.symm
      exact hmapperm.nodup_iff.2 (by simpa using hnodup)
    refine (ih _ hnd3).trans ?_
    refine (List.Perm.append_right fs hinsperm).trans ?_
    exact List.perm_middle.symm

end MessageQueue

/-- C1: for every N and every permutation of the nonces 1..N, pushing
the N frames one at a time via `TryPush` into a freshly created queue
armed via `SetConnectionMessageReceived`, the frames returned by the
`TryPush` calls concatenated with the frames yielded by repeatedly
calling `Pop` after each push (until it yields nothing) carry exactly
the nonces 1, 2, ..., N in ascending order, each exactly once. -/
theorem C1_reorder_totality (N : Nat) (frames : List TransportMessage) (q0 : MessageQueue)
    (harm : MessageQueue.New.SetConnectionMessageReceived = some q0)
    (hperm : List.Perm (frames.map TransportMessage.Nonce) (List.range' 1 N)) :
    (MessageQueue.processAll q0 frames).1.map TransportMessage.Nonce = List.range' 1 N := by
  have hnew : MessageQueue.New.SetConnectionMessageReceived =
      some (⟨1, []⟩ : MessageQueue) := rfl
  rw [hnew] at harm
  have hq0 : q0 = ⟨1, []⟩ := (Option.some.inj harm).symm
  subst hq0
  have hInv : MessageQueue.Inv [] ⟨1, []⟩ := by
    simp only [MessageQueue.Inv, MessageQueue.pnonces]
    refine ⟨le_refl 1, List.not_mem_nil _, ?_, by simp, by simp⟩
    intro m hm hlt
    omega
  have hfresh : ∀ f ∈ frames, f.Nonce ∉ ([] : List Nat) ∧ 1 ≤ f.Nonce := by
    intro f hf
    refine ⟨List.not_mem_nil _, ?_⟩
    have h1 : f.Nonce ∈ frames.map TransportMessage.Nonce := List.mem_map_of_mem _ hf
    have h2 := hperm.mem_iff.1 h1
    rw [List.mem_range'_1] at h2
    omega
  have hnodup : (frames.map TransportMessage.Nonce).Nodup :=
    hperm.nodup_iff.2 (List.nodup_range' 1 N)
  obtain ⟨hInvF, hle, hmap⟩ :=
    MessageQueue.processAll_spec frames [] ⟨1, []⟩ hInv hfresh hnodup
  obtain ⟨k1, k2, k3, k4, k5⟩ := hInvF
  have hmemAll : ∀ m, m ∈ frames.map TransportMessage.Nonce ++ ([] : List Nat) ↔
      (1 ≤ m ∧ m < 1 + N) := by
    intro m
    rw [List.append_nil, hperm.mem_iff, List.mem_range'_1]
  have hnf : (MessageQueue.processAll ⟨1, []⟩ frames).2.nextExpectedNonce = N + 1 := by
    by_contra hne
    rcases Nat.lt_or_ge (MessageQueue.processAll ⟨1, []⟩ frames).2.nextExpectedNonce (N + 1)
      with hlt | hge
    · exact k2 ((hmemAll _).2 ⟨k1, by omega⟩)
    · have hlt2 : N + 1 < (MessageQueue.processAll ⟨1, []⟩ frames).2.nextExpectedNonce := by
        omega
      have := (hmemAll (N + 1)).1 (k3 (N + 1) (by omega) hlt2)
      omega
  rw [hmap, hnf]
  simp

/-- Witness for C1 at N = 3 with push order 2, 3, 1. -/
theorem C1_reorder_totality_witness :
    MessageQueue.New.SetConnectionMessageReceived = some (⟨1, []⟩ : MessageQueue) ∧
    List.Perm (([⟨2, ⟨[], 0, []⟩, []⟩, ⟨3, ⟨[], 0, []⟩, []⟩,
        ⟨1, ⟨[], 0, []⟩, []⟩] : List TransportMessage).map TransportMessage.Nonce)
      (List.range' 1 3) ∧
    (MessageQueue.processAll ⟨1, []⟩ [⟨2, ⟨[], 0, []⟩, []⟩, ⟨3, ⟨[], 0, []⟩, []⟩,
        ⟨1, ⟨[], 0, []⟩, []⟩]).1.map TransportMessage.Nonce = List.range' 1 3 :=
  ⟨by decide, by decide, C1_reorder_totality 3 _ _ (by decide) (by decide)⟩

/-- C4 counterexample: a frame with nonce 2 pushed before the
handshake is buffered; after arming, `Pop` yields nothing (the queue
waits for nonce 1), so the buffered frame is not obtainable via
repeated `Pop`, refuting "after arm all buffered frames are
obtainable". -/
theorem C4_counterexample :
    MessageQueue.TryPush MessageQueue.New ⟨2, ⟨[], 0, []⟩, []⟩ =
      (none, false, ⟨0, [⟨2, ⟨[], 0, []⟩, []⟩]⟩) ∧
    MessageQueue.SetConnectionMessageReceived ⟨0, [⟨2, ⟨[], 0, []⟩, []⟩]⟩ =
      some ⟨1, [⟨2, ⟨[], 0, []⟩, []⟩]⟩ ∧
    MessageQueue.Pop ⟨1, [⟨2, ⟨[], 0, []⟩, []⟩]⟩ =
      (none, ⟨1, [⟨2, ⟨[], 0, []⟩, []⟩]⟩) ∧
    (⟨1, [⟨2, ⟨[], 0, []⟩, []⟩]⟩ : MessageQueue).pending ≠ [] := by
  refine ⟨by decide, by decide, by decide, by decide⟩

/-- C4 (amended): every pre-arm `TryPush` buffers its frame and
returns `(none, false)`, and `Pop` yields nothing before arming; if
the buffered nonces are a permutation of 1..N, then after
`SetConnectionMessageReceived` repeated `Pop` yields all buffered
frames — exactly the pushed frames — in ascending nonce order. -/
theorem C4_pre_handshake_buffering (N : Nat) (frames : List TransportMessage)
    (qa : MessageQueue)
    (hperm : List.Perm (frames.map TransportMessage.Nonce) (List.range' 1 N))
    (harm : (MessageQueue.pushAll MessageQueue.New frames).2.SetConnectionMessageReceived =
      some qa) :
    (MessageQueue.pushAll MessageQueue.New frames).1 =
      List.replicate frames.length (none, false) ∧
    MessageQueue.Pop (MessageQueue.pushAll MessageQueue.New frames).2 =
      (none, (MessageQueue.pushAll MessageQueue.New frames).2) ∧
    qa.pending.map TransportMessage.Nonce = List.range' 1 N ∧
    List.Perm qa.pending frames ∧
    MessageQueue.popLoop qa.pending.length qa = (qa.pending, ⟨1 + N, []⟩) := by
  have hpush := MessageQueue.pushAll_unarmed frames []
  have hnewq : MessageQueue.New = (⟨0, []⟩ : MessageQueue) := rfl
  rw [hnewq, hpush] at harm
  set pendingF := frames.foldl (fun acc f => MessageQueue.insertLocked f acc) [] with hpf
  have harm2 : (MessageQueue.SetConnectionMessageReceived ⟨0, pendingF⟩) =
      some ⟨1, pendingF⟩ := by
    simp [MessageQueue.SetConnectionMessageReceived]
  rw [harm2] at harm
  have hqa : qa = ⟨1, pendingF⟩ := (Option.some.inj harm).symm
  subst hqa
  have hnodup : (frames.map TransportMessage.Nonce).Nodup :=
    hperm.nodup_iff.2 (List.nodup_range' 1 N)
  have hpw : List.Pairwise (· < ·) (pendingF.map TransportMessage.Nonce) :=
    MessageQueue.foldl_insert_pairwise frames [] (by simp)
  have hmem : ∀ m, m ∈ pendingF.map TransportMessage.Nonce ↔ m ∈ List.range' 1 N := by
    intro m
    rw [hpf, MessageQueue.foldl_insert_mem, ← hperm.mem_iff]
    simp
  have hnd1 : (pendingF.map TransportMessage.Nonce).Nodup :=
    hpw.imp (fun {a b} hab => Nat.ne_of_lt hab)
  have hperm2 : List.Perm (pendingF.map TransportMessage.Nonce) (List.range' 1 N) :=
    (List.perm_ext_iff_of_nodup hnd1 (List.nodup_range' 1 N)).2 hmem
  have hsorted : pendingF.map TransportMessage.Nonce = List.range' 1 N := by
    have hs1 : List.Sorted (· ≤ ·) (pendingF.map TransportMessage.Nonce) :=
      hpw.imp (fun {a b} hab => Nat.le_of_lt hab)
    have hs2 : List.Sorted (· ≤ ·) (List.range' 1 N) :=
      (List.pairwise_lt_range' 1 N).imp (fun {a b} hab => Nat.le_of_lt hab)
    exact List.eq_of_perm_of_sorted hperm2 hs1 hs2
  have hlen : pendingF.length = N := by
    have := congrArg List.length hsorted
    simpa using this
  refine ⟨?_, ?_, ?_, ?_, ?_⟩
  · rw [hnewq, hpush]
  · rw [hnewq, hpush]
    simp [MessageQueue.Pop]
  · exact hsorted
  · have := MessageQueue.foldl_insert_perm frames [] (by simpa using hnodup)
    simpa using this
  · have h := MessageQueue.popLoop_all pendingF 1 (le_refl 1) (by rw [hsorted, hlen])
    rw [show (⟨1 + N, []⟩ : MessageQueue) = ⟨1 + pendingF.length, []⟩ by rw [hlen]]
    exact h

/-! ## Gateway request layout (C6) -/

theorem writeAt_append (pre mid post src : List Nat) (n : Nat) (hn : pre.length = n)
    (hmid : mid.length = src.length) :
    writeAt (pre ++ (mid ++ post)) n src = pre ++ (src ++ post) := by
  subst hn
  unfold writeAt
  rw [List.take_left, ← List.append_assoc,
    List.drop_left' (by rw [List.length_append, hmid]), List.append_assoc]

theorem rep_split (k m n : Nat) (h : k = m + n) :
    List.replicate k (0 : Nat) = List.replicate m 0 ++ List.replicate n 0 := by
  rw [h, List.replicate_add]

theorem Recipient.WF_lengths (r : Recipient) (h : r.WF = true) :
    r.ClientIdentity.length = 32 ∧ r.ClientEncryptionKey.length = 32 ∧
      r.Gateway.length = 32 := by
  simp only [Recipient.WF, Bool.and_eq_true, beq_iff_eq] at h
  exact ⟨h.1.1.1.1.1, h.1.1.1.1.2, h.1.1.1.2⟩

theorem Recipient.Bytes_length (r : Recipient) (h : r.WF = true) : r.Bytes.length = 96 := by
  obtain ⟨h1, h2, h3⟩ := Recipient.WF_lengths r h
  simp [Recipient.Bytes, h1, h2, h3]

/-- C6: the serialized gateway SendRequest is exactly the send tag
0x00, the 96-byte recipient, 8 zero connection-id bytes, the 8-byte
big-endian payload length, and the payload; its total length is
113 + |payload|. -/
theorem C6_send_request_layout (r : Recipient) (p : List Nat) (hwf : r.WF = true) :
    serializeSendRequest r p =
      [0] ++ r.Bytes ++ List.replicate 8 0 ++ putUint64 p.length ++ p ∧
    (serializeSendRequest r p).length = 113 + p.length ∧
    (putUint64 p.length).length = 8 ∧
    (p.length < 2 ^ 64 → beUint64 (putUint64 p.length) = p.length) := by
  have h96 := Recipient.Bytes_length r hwf
  have hu8 : (putUint64 p.length).length = 8 := by simp [putUint64]
  have hmain : serializeSendRequest r p =
      [0] ++ r.Bytes ++ List.replicate 8 0 ++ putUint64 p.length ++ p := by
    unfold serializeSendRequest
    dsimp only
    rw [rep_split (1 + 96 + 8 + 8 + p.length) 1 (96 + 8 + 8 + p.length) (by omega)]
    have s1 : writeAt (List.replicate 1 0 ++ List.replicate (96 + 8 + 8 + p.length) 0) 0 [0] =
        [0] ++ List.replicate (96 + 8 + 8 + p.length) 0 := by
      have := writeAt_append [] (List.replicate 1 0)
        (List.replicate (96 + 8 + 8 + p.length) 0) [0] 0 rfl (by simp)
      simpa using this
    rw [s1]
    rw [rep_split (96 + 8 + 8 + p.length) 96 (8 + 8 + p.length) (by omega)]
    have s2 : writeAt ([0] ++ (List.replicate 96 0 ++ List.replicate (8 + 8 + p.length) 0)) 1
        r.Bytes = [0] ++ (r.Bytes ++ List.replicate (8 + 8 + p.length) 0) := by
      exact writeAt_append [0] (List.replicate 96 0) (List.replicate (8 + 8 + p.length) 0)
        r.Bytes 1 rfl (by simp [h96])
    rw [s2]
    rw [rep_split (8 + 8 + p.length) 8 (8 + p.length) (by omega),
        rep_split (8 + p.length) 8 p.length rfl]
    have hre : ([0] : List Nat) ++ (r.Bytes ++ (List.replicate 8 0 ++
        (List.replicate 8 0 ++ List.replicate p.length 0))) =
        ([0] ++ r.Bytes ++ List.replicate 8 0) ++
          (List.replicate 8 0 ++ List.replicate p.length 0) := by
      simp [List.append_assoc]
    rw [hre]
    have s3 : writeAt (([0] ++ r.Bytes ++ List.replicate 8 0) ++
          (List.replicate 8 0 ++ List.replicate p.length 0)) 105 (putUint64 p.length) =
        ([0] ++ r.Bytes ++ List.replicate 8 0) ++
          (putUint64 p.length ++ List.replicate p.length 0) := by
      refine writeAt_append _ _ _ _ 105 ?_ (by simp [hu8])
      simp [h96]
    rw [s3]
    have hre2 : (([0] : List Nat) ++ r.Bytes ++ List.replicate 8 0) ++
        (putUint64 p.length ++ List.replicate p.length 0) =
        ([0] ++ r.Bytes ++ List.replicate 8 0 ++ putUint64 p.length) ++
          (List.replicate p.length 0 ++ []) := by
      simp [List.append_assoc]
    rw [hre2]
    have s4 : writeAt (([0] ++ r.Bytes ++ List.replicate 8 0 ++ putUint64 p.length) ++
          (List.replicate p.length 0 ++ [])) 113 p =
        ([0] ++ r.Bytes ++ List.replicate 8 0 ++ putUint64 p.length) ++ (p ++ []) := by
      refine writeAt_append _ _ _ _ 113 ?_ (by simp)
      simp [h96, hu8]
    rw [s4]
    simp [List.append_assoc]
  refine ⟨hmain, ?_, hu8, ?_⟩
  · rw [hmain]
    simp [h96, hu8]
    omega
  · intro hlt
    simp only [putUint64, beUint64, List.foldl_cons, List.foldl_nil]
    omega

/-- Witness for C6 with a 2-byte payload. -/
theorem C6_send_request_layout_witness :
    Recipient.WF ⟨List.replicate 32 1, List.replicate 32 2, List.replicate 32 3⟩ = true ∧
    serializeSendRequest ⟨List.replicate 32 1, List.replicate 32 2, List.replicate 32 3⟩
        [9, 9] =
      [0] ++ (⟨List.replicate 32 1, List.replicate 32 2,
        List.replicate 32 3⟩ : Recipient).Bytes ++
        List.replicate 8 0 ++ putUint64 2 ++ [9, 9] :=
  ⟨by decide,
   (C6_send_request_layout ⟨List.replicate 32 1, List.replicate 32 2, List.replicate 32 3⟩
      [9, 9] (by decide)).1⟩

/-! ## Substream semantics (C8, C9, C10) -/

/-- C9: `Write` on a locally closed substream fails with the
stream-closed error and transfers nothing; on an open substream whose
underlying send succeeds it returns exactly `len(p)` and the sent
Data frame carries the caller's bytes. -/
theorem C9_write_semantics (s : Substream) (id : List Nat) (sendOk : Bool) (p : List Nat) :
    (s.localClosed = true → s.Write id sendOk p = (.streamClosedErr, [])) ∧
    (s.localClosed = false → s.Write id true p = (.ok p.length, [⟨id, 3, p⟩])) := by
  constructor <;> intro h <;> simp [Substream.Write, h]

/-- Witness for C9. -/
theorem C9_write_semantics_witness :
    ({ newSubstream with localClosed := true } : Substream).localClosed = true ∧
    ({ newSubstream with localClosed := true } : Substream).Write [7] true [1, 2] =
      (.streamClosedErr, []) ∧
    newSubstream.localClosed = false ∧
    newSubstream.Write [7] true [1, 2] = (.ok 2, [⟨[7], 3, [1, 2]⟩]) := by
  refine ⟨by decide, ?_, by decide, ?_⟩
  · exact (C9_write_semantics { newSubstream with localClosed := true } [7] true [1, 2]).1
      (by decide)
  · exact (C9_write_semantics newSubstream [7] true [1, 2]).2 (by decide)

/-- C10: an empty Data chunk delivered to an open substream is
enqueued by `pushData`; a later `Read` of size `n ≥ 1` with an empty
residual buffer consumes that chunk and returns 0 bytes with a nil
error — neither blocking nor reporting end-of-stream. -/
theorem C10_empty_data_chunk (s : Substream) (n : Nat) (hn : 1 ≤ n)
    (hrc : s.remoteClosed = false) (hlc : s.localClosed = false)
    (hic : s.inboundClosed = false) (hbuf : s.buffer = []) (hq : s.inbound = []) :
    s.pushData false [] = some { s with inbound := [[]] } ∧
    Substream.Read { s with inbound := [[]] } n = (.bytes [], { s with inbound := [] }) := by
  constructor
  · simp [Substream.pushData, hrc, hlc, hic, hq]
  · simp [Substream.Read, show ¬(n = 0) by omega, hbuf]

/-- Witness for C10. -/
theorem C10_empty_data_chunk_witness :
    newSubstream.pushData false [] = some { newSubstream with inbound := [[]] } ∧
    Substream.Read { newSubstream with inbound := [[]] } 5 =
      (.bytes [], { newSubstream with inbound := [] }) :=
  C10_empty_data_chunk newSubstream 5 (by decide) (by decide) (by decide) (by decide)
    (by decide) (by decide)

/-- C8 counterexample: a substream with a queued 2-byte chunk is
locally closed, yet the next `Read` still returns those payload
bytes — refuting "every Read issued after Close returns either 0
bytes or end-of-stream, never buffered payload bytes". -/
theorem C8_counterexample :
    (({ newSubstream with
        inbound := [[97, 98]] } : Substream).closeWithControl false true []).1.localClosed =
      true ∧
    ((({ newSubstream with
        inbound := [[97, 98]] } : Substream).closeWithControl false true []).1.Read 2).1 =
      .bytes [97, 98] := by
  refine ⟨by decide, by decide⟩

/-- C8 (amended): closing a substream locally is a no-op when already
locally closed; otherwise it marks local-closed, sends a Close frame
(when the connection is open), marks remote-closed and closes the
inbound byte queue exactly once (a repeated close changes nothing);
after local close no new data is accepted, and once the residual
buffer and the queue are drained every Read reports end-of-stream
(data already buffered at close time may still be returned). -/
theorem C8_close_semantics (s : Substream) (id : List Nat) (connClosed : Bool) (n : Nat)
    (hn : 1 ≤ n) (hinv : s.closeOnceDone = true → s.inboundClosed = true) :
    (s.localClosed = true → s.closeWithControl connClosed true id = (s, [])) ∧
    (s.localClosed = false →
      (s.Close connClosed id).1.localClosed = true ∧
      (s.Close connClosed id).1.remoteClosed = true ∧
      (s.Close connClosed id).1.inboundClosed = true ∧
      (connClosed = false → (s.Close connClosed id).2 = [⟨id, 2, []⟩]) ∧
      (s.closeOnceDone = false →
        (s.Close connClosed id).1.closeCount = s.closeCount + 1) ∧
      (s.Close connClosed id).1.closeWithControl connClosed true id =
        ((s.Close connClosed id).1, []) ∧
      (∀ d cc, (s.Close connClosed id).1.pushData cc d = some (s.Close connClosed id).1) ∧
      ((s.Close connClosed id).1.buffer = [] → (s.Close connClosed id).1.inbound = [] →
        (s.Close connClosed id).1.Read n = (.eof, (s.Close connClosed id).1))) := by
  constructor
  · intro h
    simp [Substream.closeWithControl, h]
  · intro h
    have hclose : s.Close connClosed id =
        (closeInboundOnce { s with localClosed := true, remoteClosed := true },
         if True ∧ ¬connClosed then [(⟨id, 2, []⟩ : SubstreamMessage)] else []) := by
      simp [Substream.Close, Substream.closeWithControl, h]
    by_cases honce : s.closeOnceDone
    · rw [hclose]
      refine ⟨?_, ?_, ?_, ?_, ?_, ?_, ?_, ?_⟩ <;>
        simp_all [closeInboundOnce, Substream.closeWithControl, Substream.pushData,
          Substream.Read, show ¬(n = 0) by omega]
    · rw [hclose]
      refine ⟨?_, ?_, ?_, ?_, ?_, ?_, ?_, ?_⟩ <;>
        simp_all [closeInboundOnce, Substream.closeWithControl, Substream.pushData,
          Substream.Read, show ¬(n = 0) by omega]

/-- Witness for the amended C8. -/
theorem C8_close_semantics_witness :
    newSubstream.localClosed = false ∧
    (newSubstream.Close false [7]).1.inboundClosed = true ∧
    (newSubstream.Close false [7]).2 = [⟨[7], 2, []⟩] ∧
    (newSubstream.Close false [7]).1.closeCount = newSubstream.closeCount + 1 := by
  have h := (C8_close_semantics newSubstream [7] false 1 (by decide)
    (by intro hc; exact absurd hc (by decide))).2 (by decide)
  exact ⟨by decide, h.2.2.1, h.2.2.2.1 (by decide), h.2.2.2.2.1 (by decide)⟩

/-! ## Transport index (C5) -/

theorem mapHas_mapSet {α : Type} (k k' : List Nat) (v : α) (m : List (List Nat × α)) :
    mapHas k (mapSet k' v m) = true ↔ k' = k ∨ mapHas k m = true := by
  induction m with
  | nil => simp [mapHas, mapSet]
  | cons e rest ih =>
    by_cases he : e.1 = k'
    · simp only [mapSet, if_pos he, mapHas, List.any_cons, Bool.or_eq_true, beq_iff_eq]
      rw [he]
      tauto
    · simp only [mapSet, if_neg he, mapHas, List.any_cons, Bool.or_eq_true, beq_iff_eq] at ih ⊢
      tauto

theorem mapHas_delete_self {α : Type} (k : List Nat) (m : List (List Nat × α)) :
    mapHas k (mapDelete k m) = false := by
  induction m with
  | nil => simp [mapHas, mapDelete]
  | cons e rest ih =>
    by_cases he : e.1 = k
    · simpa [mapDelete, he, mapHas] using ih
    · simpa [mapDelete, he, mapHas, List.any_cons] using ih

theorem mapHas_delete_le {α : Type} (k k' : List Nat) (m : List (List Nat × α))
    (h : mapHas k (mapDelete k' m) = true) : mapHas k m = true := by
  induction m with
  | nil => simpa [mapHas, mapDelete] using h
  | cons e rest ih =>
    by_cases he : e.1 = k'
    · simp only [mapDelete, List.filter_cons, he] at h
      simp only [bne_self_eq_false, Bool.false_eq_true, if_false] at h
      have := ih h
      simp only [mapHas, List.any_cons, Bool.or_eq_true] at this ⊢
      exact Or.inr this
    · simp only [mapDelete, List.filter_cons] at h
      rw [if_pos (by simpa using he)] at h
      simp only [mapHas, List.any_cons, Bool.or_eq_true] at h ⊢
      rcases h with h | h
      · exact Or.inl h
      · exact Or.inr (ih h)

/-- Each guarded step preserves the no-coexistence invariant. -/
theorem TStepSafe_preserves (t t' : TransportState) (h : TStepSafe t t')
    (hInv : NoCoexist t) : NoCoexist t' := by
  cases h with
  | dial id rec hg =>
    unfold dialRegister
    by_cases hc : mapHas id t.pendingDials = true
    · simpa [hc] using hInv
    · simp only [Bool.not_eq_true] at hc
      simp only [hc, Bool.false_eq_true, if_false]
      intro k hk
      obtain ⟨hk1, hk2⟩ := hk
      rw [mapHas_mapSet] at hk1
      rcases hk1 with rfl | hk1
      · dsimp only at hk2
        rw [hk2] at hg
        simp at hg
      · exact hInv k ⟨hk1, hk2⟩
  | removeDial id =>
    intro k hk
    obtain ⟨hk1, hk2⟩ := hk
    exact hInv k ⟨mapHas_delete_le k id _ hk1, hk2⟩
  | connRequest cm hg =>
    unfold handleConnectionRequest
    cases cm.Recipient with
    | none => exact hInv
    | some rec =>
      by_cases hc : mapHas cm.ID t.connections = true
      · simpa [hc] using hInv
      · simp only [Bool.not_eq_true] at hc
        simp only [hc, Bool.false_eq_true, if_false]
        intro k hk
        obtain ⟨hk1, hk2⟩ := hk
        rw [mapHas_mapSet] at hk2
        rcases hk2 with rfl | hk2
        · dsimp only at hk1
          rw [hk1] at hg
          simp at hg
        · exact hInv k ⟨hk1, hk2⟩
  | connResponse cm =>
    unfold handleConnectionResponse
    cases hf : t.pendingDials.find? (fun e => e.1 == cm.ID) with
    | none => exact hInv
    | some est =>
      intro k hk
      obtain ⟨hk1, hk2⟩ := hk
      simp only at hk1 hk2
      rw [mapHas_mapSet] at hk2
      rcases hk2 with rfl | hk2
      · rw [mapHas_delete_self] at hk1
        exact absurd hk1 (by simp)
      · exact hInv k ⟨mapHas_delete_le k cm.ID _ hk1, hk2⟩
  | removeConn id =>
    intro k hk
    obtain ⟨hk1, hk2⟩ := hk
    exact hInv k ⟨hk1, mapHas_delete_le k id _ hk2⟩
  | close =>
    intro k hk
    simpa [closeTransport, mapHas] using hk.1

/-- C5 counterexample: starting from a fresh transport, an unguarded
`Dial` registration of ConnectionID 0…0 followed by a handled
ConnectionRequest carrying the same (attacker-chosen) ConnectionID —
both steps the code permits — yields a state in which that id keys
both the pending-dials map and the live-connections map. -/
theorem C5_counterexample :
    TStep initialTransport
      (dialRegister initialTransport (List.replicate 32 0)
        ⟨List.replicate 32 0, List.replicate 32 0, List.replicate 32 0⟩).1 ∧
    TStep
      (dialRegister initialTransport (List.replicate 32 0)
        ⟨List.replicate 32 0, List.replicate 32 0, List.replicate 32 0⟩).1
      (handleConnectionRequest
        (dialRegister initialTransport (List.replicate 32 0)
          ⟨List.replicate 32 0, List.replicate 32 0, List.replicate 32 0⟩).1
        ⟨[0, 0], some ⟨List.replicate 32 0, List.replicate 32 0, List.replicate 32 0⟩,
          List.replicate 32 0⟩) ∧
    mapHas (List.replicate 32 0)
      (handleConnectionRequest
        (dialRegister initialTransport (List.replicate 32 0)
          ⟨List.replicate 32 0, List.replicate 32 0, List.replicate 32 0⟩).1
        ⟨[0, 0], some ⟨List.replicate 32 0, List.replicate 32 0, List.replicate 32 0⟩,
          List.replicate 32 0⟩).pendingDials = true ∧
    mapHas (List.replicate 32 0)
      (handleConnectionRequest
        (dialRegister initialTransport (List.replicate 32 0)
          ⟨List.replicate 32 0, List.replicate 32 0, List.replicate 32 0⟩).1
        ⟨[0, 0], some ⟨List.replicate 32 0, List.replicate 32 0, List.replicate 32 0⟩,
          List.replicate 32 0⟩).connections = true := by
  refine ⟨TStep.dial _ _ _, TStep.connRequest _ _, by decide, by decide⟩

/-- C5 (amended): in every state reachable from the fresh transport
by steps in which no `Dial` registers an id currently held by a live
connection and no handled ConnectionRequest carries an id currently
held by a pending dial, no ConnectionID keys both the pending-dials
map and the live-connections map. -/
theorem C5_no_coexist (t : TransportState)
    (hreach : Relation.ReflTransGen TStepSafe initialTransport t) : NoCoexist t := by
  induction hreach with
  | refl =>
    intro k hk
    simpa [initialTransport, mapHas] using hk.1
  | tail hsteps hstep ih => exact TStepSafe_preserves _ _ hstep ih

/-- Witness for the amended C5: one safely-handled ConnectionRequest
from the fresh transport. -/
theorem C5_no_coexist_witness :
    NoCoexist (handleConnectionRequest initialTransport
      ⟨[0, 0], some ⟨List.replicate 32 0, List.replicate 32 0, List.replicate 32 0⟩,
        List.replicate 32 0⟩) :=
  C5_no_coexist _
    (Relation.ReflTransGen.single
      (TStepSafe.connRequest initialTransport
        ⟨[0, 0], some ⟨List.replicate 32 0, List.replicate 32 0, List.replicate 32 0⟩,
          List.replicate 32 0⟩ (by decide)))

/-! ## Wire codec (C2, C7) -/

theorem beUint64_putUint64 (n : Nat) (h : n < 2 ^ 64) : beUint64 (putUint64 n) = n := by
  simp only [putUint64, beUint64, List.foldl_cons, List.foldl_nil]
  omega

theorem putUint64_length (n : Nat) : (putUint64 n).length = 8 := by
  simp [putUint64]

theorem validMultihash_not_isEmpty (b : List Nat) (h : validMultihash b = true) :
    b.isEmpty = false := by
  unfold validMultihash at h
  by_cases hb : b.length < 2
  · simp [hb] at h
  · cases b with
    | nil => simp at hb
    | cons x xs => rfl

theorem RecipientFromBytes_Bytes (r : Recipient) (h : r.WF = true) :
    RecipientFromBytes r.Bytes = some r := by
  obtain ⟨h1, h2, h3⟩ := Recipient.WF_lengths r h
  unfold RecipientFromBytes
  rw [if_neg (by simp [Recipient.Bytes, h1, h2, h3])]
  have ht1 : r.Bytes.take 32 = r.ClientIdentity := by
    rw [Recipient.Bytes, List.append_assoc]
    exact List.take_left' h1
  have hd1 : r.Bytes.drop 32 = r.ClientEncryptionKey ++ r.Gateway := by
    rw [Recipient.Bytes, List.append_assoc]
    exact List.drop_left' h1
  have ht2 : (r.Bytes.drop 32).take 32 = r.ClientEncryptionKey := by
    rw [hd1]
    exact List.take_left' h2
  have hd2 : r.Bytes.drop 64 = r.Gateway := by
    rw [Recipient.Bytes]
    exact List.drop_left' (by simp [h1, h2])
  rw [ht1, ht2, hd2]

/-- `decodeConnectionMessage` on a flag-0 layout: the id is read back
and the trailing bytes become the peer identity iff they are a
non-empty valid multihash. -/
theorem decodeConnectionMessage_flag0 (id peer : List Nat) (hid : id.length = 32) :
    decodeConnectionMessage (id ++ [0] ++ peer) =
      if peer.isEmpty then none
      else if validMultihash peer then some ⟨peer, none, id⟩ else none := by
  have htake : (id ++ [0] ++ peer).take 32 = id := by
    rw [List.append_assoc]
    exact List.take_left' hid
  have hdrop : (id ++ [0] ++ peer).drop 32 = 0 :: peer := by
    rw [List.append_assoc]
    exact List.drop_left' hid
  unfold decodeConnectionMessage
  rw [if_neg (by simp [hid]; omega)]
  rw [hdrop, htake]
  simp only [IDFromBytes]
  by_cases hpe : peer.isEmpty <;> by_cases hvm : validMultihash peer <;> simp [hpe, hvm]

/-- `decodeConnectionMessage` on a flag-1 layout with a well-formed
recipient. -/
theorem decodeConnectionMessage_flag1 (id peer : List Nat) (r : Recipient)
    (hid : id.length = 32) (hr : r.WF = true) :
    decodeConnectionMessage (id ++ [1] ++ r.Bytes ++ peer) =
      if peer.isEmpty then none
      else if validMultihash peer then some ⟨peer, some r, id⟩ else none := by
  have h96 := Recipient.Bytes_length r hr
  have htake : (id ++ [1] ++ r.Bytes ++ peer).take 32 = id := by
    rw [List.append_assoc, List.append_assoc]
    exact List.take_left' hid
  have hdrop : (id ++ [1] ++ r.Bytes ++ peer).drop 32 = 1 :: (r.Bytes ++ peer) := by
    rw [List.append_assoc, List.append_assoc]
    exact List.drop_left' hid
  have htake96 : (r.Bytes ++ peer).take 96 = r.Bytes := List.take_left' h96
  have hdrop96 : (r.Bytes ++ peer).drop 96 = peer := List.drop_left' h96
  unfold decodeConnectionMessage
  rw [if_neg (by simp [hid, h96]; omega)]
  rw [hdrop, htake]
  simp only [if_pos rfl, if_neg (by simp [h96] : ¬(r.Bytes ++ peer).length < 96), htake96,
    RecipientFromBytes_Bytes r hr, hdrop96]
  simp only [IDFromBytes]
  by_cases hpe : peer.isEmpty <;> by_cases hvm : validMultihash peer <;> simp [hpe, hvm]

theorem connectionMessageWF_fields (cm : ConnectionMessage) (h : cm.WF = true) :
    cm.ID.length = 32 ∧ (∀ r ∈ cm.Recipient, r.WF = true) ∧ cm.PeerID.isEmpty = false ∧
      validMultihash cm.PeerID = true := by
  simp only [ConnectionMessage.WF, Bool.and_eq_true, beq_iff_eq, Bool.not_eq_true'] at h
  refine ⟨h.1.1.1.1.1, ?_, h.1.1.2, h.2⟩
  intro r hrmem
  have := h.1.1.1.2
  cases hc : cm.Recipient with
  | none => rw [hc] at hrmem; exact absurd hrmem (by simp)
  | some r' =>
    rw [hc] at hrmem this
    simp only [Option.mem_def, Option.some.injEq] at hrmem
    subst hrmem
    exact this

theorem decode_encodeConnectionMessage (cm : ConnectionMessage) (h : cm.WF = true) :
    decodeConnectionMessage (encodeConnectionMessage cm) = some cm := by
  obtain ⟨hid, hrec, hpe, hvm⟩ := connectionMessageWF_fields cm h
  cases hc : cm.Recipient with
  | none =>
    have henc : encodeConnectionMessage cm = cm.ID ++ [0] ++ cm.PeerID := by
      simp [encodeConnectionMessage, hc]
    rw [henc, decodeConnectionMessage_flag0 cm.ID cm.PeerID hid, if_neg (by simp [hpe]),
      if_pos hvm, ← hc]
  | some r =>
    have hrwf : r.WF = true := hrec r (by rw [hc]; rfl)
    have henc : encodeConnectionMessage cm = cm.ID ++ [1] ++ r.Bytes ++ cm.PeerID := by
      simp [encodeConnectionMessage, hc]
    rw [henc, decodeConnectionMessage_flag1 cm.ID cm.PeerID r hid hrwf,
      if_neg (by simp [hpe]), if_pos hvm, ← hc]

theorem substreamMessageWF_fields (sm : SubstreamMessage) (h : sm.WF = true) :
    sm.ID.length = 32 ∧ (sm.typ = 0 ∨ sm.typ = 1 ∨ sm.typ = 2 ∨ sm.typ = 3) ∧
      (sm.typ ≠ 3 → sm.Data = []) := by
  simp only [SubstreamMessage.WF, Bool.and_eq_true, Bool.or_eq_true, beq_iff_eq,
    List.isEmpty_iff] at h
  refine ⟨h.1.1.1.1, ?_, ?_⟩
  · tauto
  · intro h3
    rcases h.1.2 with hc | hc
    · exact absurd hc h3
    · exact hc

theorem decode_encodeSubstreamMessage (sm : SubstreamMessage) (h : sm.WF = true) :
    decodeSubstreamMessage (encodeSubstreamMessage sm) = some sm := by
  obtain ⟨hid, htyp, hdata⟩ := substreamMessageWF_fields sm h
  have htake : (sm.ID ++ [sm.typ] ++ sm.Data).take 32 = sm.ID := by
    rw [List.append_assoc]
    exact List.take_left' hid
  have hdrop : (sm.ID ++ [sm.typ] ++ sm.Data).drop 32 = sm.typ :: sm.Data := by
    rw [List.append_assoc]
    exact List.drop_left' hid
  unfold decodeSubstreamMessage encodeSubstreamMessage
  rw [if_neg (by simp [hid]; omega)]
  rw [hdrop, htake]
  rcases htyp with h0 | h1 | h2 | h3
  · have hd := hdata (by omega)
    simp [h0, hd]
    rw [← h0, ← hd]
  · have hd := hdata (by omega)
    simp [h1, hd]
    rw [← h1, ← hd]
  · have hd := hdata (by omega)
    simp [h2, hd]
    rw [← h2, ← hd]
  · simp [h3]
    rw [← h3]

theorem transportMessageWF_fields (tm : TransportMessage) (h : tm.WF = true) :
    tm.Nonce < 2 ^ 64 ∧ tm.ID.length = 32 ∧ tm.Message.WF = true := by
  simp only [TransportMessage.WF, Bool.and_eq_true, beq_iff_eq, decide_eq_true_eq] at h
  exact ⟨h.1.1.1, h.1.1.2, h.2⟩

theorem decode_encodeTransportMessage (tm : TransportMessage) (h : tm.WF = true) :
    decodeTransportMessage (encodeTransportMessage tm) = some tm := by
  obtain ⟨hn, hid, hsm⟩ := transportMessageWF_fields tm h
  have hu8 := putUint64_length tm.Nonce
  have hsml : 33 ≤ (encodeSubstreamMessage tm.Message).length := by
    obtain ⟨hsid, _, _⟩ := substreamMessageWF_fields tm.Message hsm
    simp [encodeSubstreamMessage, hsid]
    omega
  have htake8 : (putUint64 tm.Nonce ++ tm.ID ++ encodeSubstreamMessage tm.Message).take 8 =
      putUint64 tm.Nonce := by
    rw [List.append_assoc]
    exact List.take_left' hu8
  have hdrop8 : (putUint64 tm.Nonce ++ tm.ID ++ encodeSubstreamMessage tm.Message).drop 8 =
      tm.ID ++ encodeSubstreamMessage tm.Message := by
    rw [List.append_assoc]
    exact List.drop_left' hu8
  have htake32 : (tm.ID ++ encodeSubstreamMessage tm.Message).take 32 = tm.ID :=
    List.take_left' hid
  have hdrop40 : (putUint64 tm.Nonce ++ tm.ID ++ encodeSubstreamMessage tm.Message).drop 40 =
      encodeSubstreamMessage tm.Message :=
    List.drop_left' (by simp [hu8, hid])
  unfold decodeTransportMessage encodeTransportMessage
  rw [if_neg (by simp [hu8, hid]; omega)]
  rw [htake8, hdrop8, htake32, hdrop40, decode_encodeSubstreamMessage tm.Message hsm,
    beUint64_putUint64 tm.Nonce hn]

/-- C2: for every well-formed top-level message, `Encode` succeeds
and `Decode` of the encoding returns the original message. -/
theorem C2_codec_round_trip (M : Message) (h : M.WF = true) :
    ∃ b, Encode M = some b ∧ Decode b = some M := by
  obtain ⟨typ, conn, trans⟩ := M
  rcases typ with _ | _ | _ | typ <;> rcases conn with _ | cm <;> rcases trans with _ | tm <;>
    simp only [Message.WF, Bool.false_eq_true] at h
  · -- ConnectionRequest (0)
    refine ⟨0 :: encodeConnectionMessage cm, by simp [Encode], ?_⟩
    simp [Decode, decode_encodeConnectionMessage cm h]
  · -- ConnectionResponse (1)
    refine ⟨1 :: encodeConnectionMessage cm, by simp [Encode], ?_⟩
    simp [Decode, decode_encodeConnectionMessage cm h]
  · -- Transport (2)
    refine ⟨2 :: encodeTransportMessage tm, by simp [Encode], ?_⟩
    simp [Decode, decode_encodeTransportMessage tm h]

/-- Witness for C2: a ConnectionRequest with recipient and a
2-byte identity-multihash peer id. -/
theorem C2_codec_round_trip_witness :
    Message.WF ⟨0, some ⟨[0, 0],
      some ⟨List.replicate 32 1, List.replicate 32 2, List.replicate 32 3⟩,
      List.replicate 32 4⟩, none⟩ = true ∧
    ∃ b, Encode ⟨0, some ⟨[0, 0],
        some ⟨List.replicate 32 1, List.replicate 32 2, List.replicate 32 3⟩,
        List.replicate 32 4⟩, none⟩ = some b ∧
      Decode b = some ⟨0, some ⟨[0, 0],
        some ⟨List.replicate 32 1, List.replicate 32 2, List.replicate 32 3⟩,
        List.replicate 32 4⟩, none⟩ :=
  ⟨by decide, C2_codec_round_trip _ (by decide)⟩

/-- C7 counterexample: a payload with a 32-byte id, flag 0 and the
non-empty trailing byte sequence `[0]` (not a well-formed multihash)
is rejected by `decodeConnectionMessage` — refuting "for any
non-empty trailing byte sequence, decode succeeds". -/
theorem C7_counterexample :
    ([0] : List Nat) ≠ [] ∧
    decodeConnectionMessage (List.replicate 32 0 ++ [0] ++ [0]) = none := by
  refine ⟨by decide, by decide⟩

/-- C7 (amended): the codec validates the trailing peer-identity
bytes as a well-formed multihash (through `peer.IDFromBytes`): for a
payload with a 32-byte id, a valid flag and matching optional
recipient, decode succeeds iff the trailing bytes are a valid
multihash (hence non-empty), in which case they are returned verbatim
as the peer identity. -/
theorem C7_peer_identity_validation (id peer : List Nat) (r : Recipient)
    (hid : id.length = 32) (hr : r.WF = true) :
    (validMultihash peer = true →
      decodeConnectionMessage (id ++ [0] ++ peer) = some ⟨peer, none, id⟩ ∧
      decodeConnectionMessage (id ++ [1] ++ r.Bytes ++ peer) = some ⟨peer, some r, id⟩) ∧
    (validMultihash peer = false →
      decodeConnectionMessage (id ++ [0] ++ peer) = none ∧
      decodeConnectionMessage (id ++ [1] ++ r.Bytes ++ peer) = none) := by
  rw [decodeConnectionMessage_flag0 id peer hid, decodeConnectionMessage_flag1 id peer r hid hr]
  constructor
  · intro hvm
    rw [if_neg (by simp [validMultihash_not_isEmpty peer hvm]), if_pos hvm,
      if_neg (by simp [validMultihash_not_isEmpty peer hvm]), if_pos hvm]
    exact ⟨rfl, rfl⟩
  · intro hvm
    by_cases hpe : peer.isEmpty <;> simp [hpe, hvm]

/-- Witness for the amended C7. -/
theorem C7_peer_identity_validation_witness :
    validMultihash [0, 0] = true ∧
    decodeConnectionMessage (List.replicate 32 5 ++ [0] ++ [0, 0]) =
      some ⟨[0, 0], none, List.replicate 32 5⟩ ∧
    validMultihash [0] = false ∧
    decodeConnectionMessage (List.replicate 32 5 ++ [0] ++ [0]) = none := by
  have h1 := (C7_peer_identity_validation (List.replicate 32 5) [0, 0]
    ⟨List.replicate 32 1, List.replicate 32 2, List.replicate 32 3⟩
    (by decide) (by decide)).1 (by decide)
  have h2 := (C7_peer_identity_validation (List.replicate 32 5) [0]
    ⟨List.replicate 32 1, List.replicate 32 2, List.replicate 32 3⟩
    (by decide) (by decide)).2 (by decide)
  exact ⟨by decide, h1.1, by decide, h2.1⟩

/-! ## Address round trip (C3): base58 lemmas -/

theorem foldr_mul_add_ofDigits (b : Nat) (L : List Nat) :
    L.foldr (fun d acc => acc * b + d) 0 = Nat.ofDigits b L := by
  induction L with
  | nil => simp [Nat.ofDigits_nil]
  | cons d L ih =>
    simp only [List.foldr_cons, ih, Nat.ofDigits_cons]
    ring

theorem foldl_mul_add (b : Nat) (L : List Nat) :
    L.foldl (fun acc d => acc * b + d) 0 = Nat.ofDigits b L.reverse := by
  have h := List.foldl_reverse L.reverse (fun acc d => acc * b + d) 0
  rw [List.reverse_reverse] at h
  rw [h, foldr_mul_add_ofDigits]

theorem countLeading_replicate_append (c z : Nat) (rest : List Nat) :
    countLeading c (List.replicate z c ++ rest) = z + countLeading c rest := by
  induction z with
  | zero => simp
  | succ n ih =>
    rw [List.replicate_succ, List.cons_append]
    simp only [countLeading, if_true, eq_self_iff_true, ih]
    omega

theorem countLeading_of_head_ne (c : Nat) (l : List Nat)
    (h : ∀ x ∈ l.head?, x ≠ c) : countLeading c l = 0 := by
  cases l with
  | nil => rfl
  | cons x rest =>
    have hx : x ≠ c := h x rfl
    simp [countLeading, hx]

theorem countLeading_spec (c : Nat) (l : List Nat) :
    l.take (countLeading c l) = List.replicate (countLeading c l) c ∧
    ∀ x ∈ (l.drop (countLeading c l)).head?, x ≠ c := by
  induction l with
  | nil => exact ⟨rfl, by simp [countLeading]⟩
  | cons b rest ih =>
    by_cases hb : b = c
    · subst hb
      simp only [countLeading, if_true, eq_self_iff_true]
      refine ⟨?_, ?_⟩
      · rw [List.take_succ_cons, ih.1, List.replicate_succ]
      · rw [List.drop_succ_cons]
        exact ih.2
    · simp only [countLeading, if_neg hb]
      refine ⟨rfl, ?_⟩
      intro x hx
      simp only [List.drop_zero, List.head?_cons, Option.mem_def, Option.some.injEq] at hx
      subst hx
      exact hb

theorem b58_getD_mem : ∀ d, d < 58 → b58Alphabet.getD d 0 ∈ b58Alphabet := by decide

theorem b58_indexOf_getD : ∀ d, d < 58 →
    b58Alphabet.indexOf (b58Alphabet.getD d 0) = d := by decide

theorem b58_mem_ne_sep : ∀ c ∈ b58Alphabet, c ≠ 46 ∧ c ≠ 64 := by decide

theorem b58_getD_ne_one : ∀ d, d < 58 → 0 < d → b58Alphabet.getD d 0 ≠ 49 := by decide

theorem b58_one_mem : (49 : Nat) ∈ b58Alphabet := by decide

theorem b58_indexOf_one : b58Alphabet.indexOf 49 = 0 := by decide

theorem base58Encode_mem_alphabet (bin : List Nat) :
    ∀ c ∈ base58Encode bin, c ∈ b58Alphabet := by
  intro c hc
  rw [base58Encode] at hc
  rcases List.mem_append.1 hc with h | h
  · rw [List.eq_of_mem_replicate h]
    exact b58_one_mem
  · obtain ⟨d, hd, rfl⟩ := List.mem_map.1 h
    exact b58_getD_mem d (Nat.digits_lt_base (by norm_num) (List.mem_reverse.1 hd))

theorem foldl_digitval_replicate (z : Nat) :
    List.foldl (fun acc c => acc * 58 + b58Alphabet.indexOf c) 0 (List.replicate z 49) = 0 := by
  induction z with
  | zero => rfl
  | succ n ih =>
    rw [List.replicate_succ, List.foldl_cons]
    simpa [b58_indexOf_one] using ih

theorem foldl_digitval_map (ds : List Nat) (acc : Nat) (hds : ∀ d ∈ ds, d < 58) :
    List.foldl (fun acc c => acc * 58 + b58Alphabet.indexOf c) acc
      (ds.map fun d => b58Alphabet.getD d 0) =
    List.foldl (fun acc d => acc * 58 + d) acc ds := by
  induction ds generalizing acc with
  | nil => rfl
  | cons d ds ih =>
    rw [List.map_cons, List.foldl_cons, List.foldl_cons,
      b58_indexOf_getD d (hds d (List.mem_cons_self _ _))]
    exact ih _ (fun x hx => hds x (List.mem_cons_of_mem _ hx))

theorem foldl_byteval_replicate (z : Nat) :
    List.foldl (fun acc b => acc * 256 + b) 0 (List.replicate z 0) = 0 := by
  induction z with
  | zero => rfl
  | succ n ih =>
    rw [List.replicate_succ, List.foldl_cons]
    simpa using ih

theorem beBytesToNat_replicate_zero (z : Nat) (t : List Nat) :
    beBytesToNat (List.replicate z 0 ++ t) = beBytesToNat t := by
  rw [beBytesToNat, beBytesToNat, List.foldl_append, foldl_byteval_replicate]

/-- The base58 round trip: decoding the encoding of a non-empty byte
string returns it unchanged. -/
theorem base58_roundtrip (bin : List Nat) (hne : bin ≠ []) (hb : ∀ b ∈ bin, b < 256) :
    base58Decode (base58Encode bin) = some bin := by
  obtain ⟨htake, hstop⟩ := countLeading_spec 0 bin
  have hsplit : List.replicate (countLeading 0 bin) 0 ++ bin.drop (countLeading 0 bin) = bin := by
    conv_rhs => rw [← List.take_append_drop (countLeading 0 bin) bin]
    rw [htake]
  cases htc : bin.drop (countLeading 0 bin) with
  | nil =>
    -- all-zero byte string: the encoding is all alphabet-zero characters
    have hbin : bin = List.replicate (countLeading 0 bin) 0 := by
      conv_lhs => rw [← hsplit]
      rw [htc, List.append_nil]
    have hzpos : 0 < countLeading 0 bin := by
      rcases Nat.eq_zero_or_pos (countLeading 0 bin) with h0 | h1
      · rw [h0] at hbin
        exact absurd hbin hne
      · exact h1
    have hn0 : beBytesToNat bin = 0 := by
      rw [hbin, beBytesToNat]
      exact foldl_byteval_replicate _
    have henc : base58Encode bin = List.replicate (countLeading 0 bin) 49 := by
      rw [base58Encode, hn0]
      simp
    rw [henc]
    have hcount : countLeading 49 (List.replicate (countLeading 0 bin) 49) =
        countLeading 0 bin := by
      have h := countLeading_replicate_append 49 (countLeading 0 bin) []
      simpa [countLeading] using h
    simp only [base58Decode]
    rw [if_neg (by simp [List.isEmpty_iff]; omega)]
    rw [if_pos ?hall]
    case hall =>
      rw [List.all_eq_true]
      intro x hx
      rw [List.eq_of_mem_replicate hx]
      decide
    rw [hcount, foldl_digitval_replicate]
    simp only [Nat.digits_zero, List.reverse_nil, List.append_nil, Option.some.injEq]
    exact hbin.symm
  | cons hd t' =>
    have hmemt : ∀ x ∈ hd :: t', x < 256 := by
      intro x hx
      exact hb x (List.mem_of_mem_drop (htc ▸ hx))
    have hhd : hd ≠ 0 := hstop hd (by rw [htc]; rfl)
    have hrevne : (hd :: t').reverse ≠ [] := by simp
    have hlast : (hd :: t').reverse.getLast hrevne = hd := by
      have h1 := List.getLast?_eq_getLast (hd :: t').reverse hrevne
      rw [List.getLast?_reverse] at h1
      simp only [List.head?_cons, Option.some.injEq] at h1
      exact h1.symm
    have hdigits : Nat.digits 256 (beBytesToNat (hd :: t')) = (hd :: t').reverse := by
      rw [beBytesToNat, foldl_mul_add]
      refine Nat.digits_ofDigits 256 (by norm_num) _ ?_ ?_
      · intro l hl
        exact hmemt l (List.mem_reverse.1 hl)
      · intro hne2
        have h2 : (hd :: t').reverse.getLast hne2 = hd := hlast
        rw [h2]
        exact hhd
    have hn_ne : beBytesToNat (hd :: t') ≠ 0 := by
      intro h0
      rw [h0, Nat.digits_zero] at hdigits
      exact absurd hdigits.symm (by simp)
    have hvalbin : beBytesToNat bin = beBytesToNat (hd :: t') := by
      conv_lhs => rw [← hsplit, htc]
      rw [beBytesToNat_replicate_zero]
    have hds_ne : Nat.digits 58 (beBytesToNat (hd :: t')) ≠ [] :=
      Nat.digits_ne_nil_iff_ne_zero.2 hn_ne
    have hds_lt : ∀ d ∈ Nat.digits 58 (beBytesToNat (hd :: t')), d < 58 :=
      fun d hd2 => Nat.digits_lt_base (by norm_num) hd2
    have henc : base58Encode bin =
        List.replicate (countLeading 0 bin) 49 ++
          ((Nat.digits 58 (beBytesToNat (hd :: t'))).reverse.map
            fun d => b58Alphabet.getD d 0) := by
      rw [base58Encode, hvalbin]
    have hlastd : (Nat.digits 58 (beBytesToNat (hd :: t'))).getLast hds_ne ≠ 0 :=
      Nat.getLast_digit_ne_zero 58 hn_ne
    have hcount : countLeading 49 (base58Encode bin) = countLeading 0 bin := by
      rw [henc, countLeading_replicate_append]
      have h0 : countLeading 49 ((Nat.digits 58 (beBytesToNat (hd :: t'))).reverse.map
          fun d => b58Alphabet.getD d 0) = 0 := by
        refine countLeading_of_head_ne _ _ ?_
        intro x hx
        rw [List.head?_map, List.head?_reverse, List.getLast?_eq_getLast _ hds_ne] at hx
        simp only [Option.map_some', Option.mem_def, Option.some.injEq] at hx
        subst hx
        refine b58_getD_ne_one _ (hds_lt _ (List.getLast_mem hds_ne)) ?_
        omega
      omega
    have hval : List.foldl (fun acc c => acc * 58 + b58Alphabet.indexOf c) 0
        (base58Encode bin) = beBytesToNat (hd :: t') := by
      rw [henc, List.foldl_append, foldl_digitval_replicate,
        foldl_digitval_map _ _ (fun d hd2 => hds_lt d (List.mem_reverse.1 hd2)),
        foldl_mul_add, List.reverse_reverse, Nat.ofDigits_digits]
    have hencne : base58Encode bin ≠ [] := by
      rw [henc]
      simp [hds_ne]
    simp only [base58Decode]
    rw [if_neg (by simp [List.isEmpty_iff, hencne])]
    rw [if_pos ?hall2]
    case hall2 =>
      rw [List.all_eq_true]
      intro x hx
      simp only [List.contains]
      exact List.elem_iff.2 (base58Encode_mem_alphabet bin x hx)
    rw [hcount, hval, hdigits, List.reverse_reverse]
    rw [show List.replicate (countLeading 0 bin) 0 ++ (hd :: t') = bin from by
      rw [← htc, hsplit]]

theorem splitChar_no_sep (sep : Nat) (l : List Nat) (h : ∀ c ∈ l, c ≠ sep) :
    splitChar sep l = [l] := by
  induction l with
  | nil => rfl
  | cons c rest ih =>
    have hc : c ≠ sep := h c (List.mem_cons_self _ _)
    have hr := ih (fun x hx => h x (List.mem_cons_of_mem _ hx))
    simp [splitChar, hr, hc]

theorem splitChar_append (sep : Nat) (a b : List Nat) (ha : ∀ c ∈ a, c ≠ sep) :
    splitChar sep (a ++ sep :: b) = a :: splitChar sep b := by
  induction a with
  | nil =>
    simp only [List.nil_append, splitChar]
    cases hs : splitChar sep b with
    | nil => exact absurd hs (by
        induction b with
        | nil => simp [splitChar]
        | cons c rest ihb =>
          simp only [splitChar]
          cases hs2 : splitChar sep rest with
          | nil => simp
          | cons h2 t2 => by_cases hc2 : c = sep <;> simp [hc2])
    | cons h t => simp
  | cons c a' ih =>
    have hc : c ≠ sep := ha c (List.mem_cons_self _ _)
    have hr := ih (fun x hx => ha x (List.mem_cons_of_mem _ hx))
    simp only [List.cons_append, splitChar, List.append_eq]
    rw [hr]
    simp [hc]

theorem decodeBase58To32_encode (k : List Nat) (hlen : k.length = 32)
    (hb : ∀ b ∈ k, b < 256) : decodeBase58To32 (base58Encode k) = some k := by
  have hne : k ≠ [] := by
    intro h
    rw [h] at hlen
    simp at hlen
  unfold decodeBase58To32
  rw [base58_roundtrip k hne hb]
  simp [hlen]

theorem Recipient.WF_bounds (r : Recipient) (h : r.WF = true) :
    (∀ b ∈ r.ClientIdentity, b < 256) ∧ (∀ b ∈ r.ClientEncryptionKey, b < 256) ∧
    (∀ b ∈ r.Gateway, b < 256) := by
  simp only [Recipient.WF, Bool.and_eq_true, beq_iff_eq, bytesWF, List.all_eq_true,
    decide_eq_true_eq] at h
  exact ⟨h.1.1.2, h.1.2, h.2⟩

/-- C3: for every text of the form `ident.enc@gw` whose three parts
are the base58 renderings of 32-byte keys — i.e. the `String`
rendering of a well-formed `Recipient` — `ParseRecipient` succeeds
and returns those keys, rendering the result back gives the same
text, and `Bytes` of the result is the 96-byte concatenation of the
three keys. -/
theorem C3_address_round_trip (r : Recipient) (hr : r.WF = true) :
    ParseRecipient r.String = some r ∧
    (∀ r' ∈ ParseRecipient r.String, Recipient.String r' = r.String) ∧
    r.Bytes = r.ClientIdentity ++ r.ClientEncryptionKey ++ r.Gateway ∧
    r.Bytes.length = 96 := by
  obtain ⟨h1, h2, h3⟩ := Recipient.WF_lengths r hr
  obtain ⟨hb1, hb2, hb3⟩ := Recipient.WF_bounds r hr
  have hm1 := base58Encode_mem_alphabet r.ClientIdentity
  have hm2 := base58Encode_mem_alphabet r.ClientEncryptionKey
  have hm3 := base58Encode_mem_alphabet r.Gateway
  have hx64 : ∀ c ∈ base58Encode r.ClientIdentity ++ [46] ++
      base58Encode r.ClientEncryptionKey, c ≠ 64 := by
    intro c hc
    rcases List.mem_append.1 hc with hc1 | hc1
    · rcases List.mem_append.1 hc1 with hc2 | hc2
      · exact (b58_mem_ne_sep c (hm1 c hc2)).2
      · simp only [List.mem_singleton] at hc2
        subst hc2
        decide
    · exact (b58_mem_ne_sep c (hm2 c hc1)).2
  have hx64g : ∀ c ∈ base58Encode r.Gateway, c ≠ 64 :=
    fun c hc => (b58_mem_ne_sep c (hm3 c hc)).2
  have hsplit64 : splitChar 64 r.String =
      [base58Encode r.ClientIdentity ++ [46] ++ base58Encode r.ClientEncryptionKey,
       base58Encode r.Gateway] := by
    have hshape : r.String =
        (base58Encode r.ClientIdentity ++ [46] ++ base58Encode r.ClientEncryptionKey) ++
          (64 :: base58Encode r.Gateway) := by
      simp [Recipient.String, List.append_assoc]
    rw [hshape, splitChar_append 64 _ _ hx64, splitChar_no_sep 64 _ hx64g]
  have hsplit46 : splitChar 46
      (base58Encode r.ClientIdentity ++ [46] ++ base58Encode r.ClientEncryptionKey) =
      [base58Encode r.ClientIdentity, base58Encode r.ClientEncryptionKey] := by
    have hshape : base58Encode r.ClientIdentity ++ [46] ++
        base58Encode r.ClientEncryptionKey =
        base58Encode r.ClientIdentity ++ (46 :: base58Encode r.ClientEncryptionKey) := by
      simp [List.append_assoc]
    rw [hshape,
      splitChar_append 46 _ _ (fun c hc => (b58_mem_ne_sep c (hm1 c hc)).1),
      splitChar_no_sep 46 _ (fun c hc => (b58_mem_ne_sep c (hm2 c hc)).1)]
  have hparse : ParseRecipient r.String = some r := by
    simp only [ParseRecipient, hsplit64, hsplit46,
      decodeBase58To32_encode r.ClientIdentity h1 hb1,
      decodeBase58To32_encode r.ClientEncryptionKey h2 hb2,
      decodeBase58To32_encode r.Gateway h3 hb3]
  refine ⟨hparse, ?_, rfl, by simp [Recipient.Bytes, h1, h2, h3]⟩
  intro r' hr'
  rw [hparse] at hr'
  simp only [Option.mem_def, Option.some.injEq] at hr'
  rw [← hr']

/-- Witness for C3 with three all-zero 32-byte keys. -/
theorem C3_address_round_trip_witness :
    Recipient.WF ⟨List.replicate 32 0, List.replicate 32 0, List.replicate 32 0⟩ = true ∧
    ParseRecipient
        (Recipient.String ⟨List.replicate 32 0, List.replicate 32 0, List.replicate 32 0⟩) =
      some ⟨List.replicate 32 0, List.replicate 32 0, List.replicate 32 0⟩ :=
  ⟨by decide,
   (C3_address_round_trip ⟨List.replicate 32 0, List.replicate 32 0, List.replicate 32 0⟩
      (by decide)).1⟩

/-- Witness for the amended C4 at N = 2 with push order 2, 1. -/
theorem C4_pre_handshake_buffering_witness :
    List.Perm (([⟨2, ⟨[], 0, []⟩, []⟩,
        ⟨1, ⟨[], 0, []⟩, []⟩] : List TransportMessage).map TransportMessage.Nonce)
      (List.range' 1 2) ∧
    ((MessageQueue.pushAll MessageQueue.New
        [⟨2, ⟨[], 0, []⟩, []⟩, ⟨1, ⟨[], 0, []⟩, []⟩]).2.SetConnectionMessageReceived =
      some (⟨1, [⟨1, ⟨[], 0, []⟩, []⟩, ⟨2, ⟨[], 0, []⟩, []⟩]⟩ : MessageQueue)) ∧
    MessageQueue.popLoop 2 ⟨1, [⟨1, ⟨[], 0, []⟩, []⟩, ⟨2, ⟨[], 0, []⟩, []⟩]⟩ =
      ([⟨1, ⟨[], 0, []⟩, []⟩, ⟨2, ⟨[], 0, []⟩, []⟩], ⟨1 + 2, []⟩) := by
  refine ⟨by decide, by decide, ?_⟩
  have h := C4_pre_handshake_buffering 2
    [⟨2, ⟨[], 0, []⟩, []⟩, ⟨1, ⟨[], 0, []⟩, []⟩]
    ⟨1, [⟨1, ⟨[], 0, []⟩, []⟩, ⟨2, ⟨[], 0, []⟩, []⟩]⟩ (by decide) (by decide)
  exact h.2.2.2.2

end NymSpec
